import Mathlib

/-!
Verification of the frontmatter-lint core: a shallow embedding of the
hand-written YAML/TOML subset parsers, the `@type`/`@zod`/`@jsonschema`
directive parser, the structural validator, and the `lintContent` driver,
together with proofs about the spec's claims.

Modelling conventions, used throughout:
* JavaScript values produced by the parsers and consumed by the validator
  are the tree type `Value` (string / number / boolean / null / array /
  ordered mapping).  Prototype-chain quirks of JS objects (e.g. keys such
  as `__proto__`) are outside the model: a mapping is an ordered
  association list and `k in obj` / `obj[k]` are first-match lookup.
* JS numbers are modelled as rationals.  The parsers only produce numbers
  from decimal integer / decimal fraction tokens, for which the rational
  value and its decimal rendering agree with the double round trip.
* TypeScript `undefined` cannot occur inside a parsed value tree, so the
  `undefined` type-kind never matches a `Value`.
* String routines (`trim`, `split`, regex tests) are re-implemented on
  character lists with JS whitespace semantics rather than taken from the
  Lean core library, so that everything reduces.
-/

namespace FmLint

/-- JS whitespace for `\s`, `trim`, and friends (the subset that can occur
in frontmatter text). -/
def isJsSpace (c : Char) : Bool :=
  c = ' ' || c = '\t' || c = '\n' || c = '\r' || c = '\x0b' || c = '\x0c'

def dropLeadingWs : List Char → List Char
  | [] => []
  | c :: cs => if isJsSpace c then dropLeadingWs cs else c :: cs

/-- JS `String.prototype.trim` on a character list. -/
def trimChars (cs : List Char) : List Char :=
  (dropLeadingWs (dropLeadingWs cs.reverse).reverse)

/-- JS `line.trim()`. -/
def jsTrim (s : String) : String :=
  String.mk (trimChars s.data)

/-- Number of leading whitespace characters: the length of the match of
`/^(\s*)/` (yaml.ts `getIndent`). -/
def countIndent : List Char → Nat
  | [] => 0
  | c :: cs => if isJsSpace c then countIndent cs + 1 else 0

def getIndent (s : String) : Nat := countIndent s.data

/-- Split a character list at every occurrence of `\r\n` or `\n`
(JS `split(/\r?\n/)`). -/
def splitLinesChars : List Char → List (List Char)
  | [] => [[]]
  | '\r' :: '\n' :: cs => [] :: splitLinesChars cs
  | '\n' :: cs => [] :: splitLinesChars cs
  | c :: cs =>
    match splitLinesChars cs with
    | [] => [[c]]
    | l :: ls => (c :: l) :: ls

def splitLines (s : String) : List String :=
  (splitLinesChars s.data).map String.mk

/-- JS truthiness default `path || "root"`. -/
def jsOrRoot (path : String) : String := if path = "" then "root" else path

/-- JS `path || undefined` in the error `path` field. -/
def pathOpt (path : String) : Option String := if path = "" then none else some path

/-- `path ? path + "." + name : name` — property-path joining. -/
def joinPath (path name : String) : String :=
  if path = "" then name else path ++ "." ++ name

/-- `path ? path + "[" + i + "]" : "[" + i + "]"` — array-element paths. -/
def idxPath (path : String) (i : Nat) : String :=
  if path = "" then "[" ++ Nat.repr i ++ "]" else path ++ "[" ++ Nat.repr i ++ "]"

/-- The generic value tree produced by both parsers (types.ts `YamlValue`
/ `TomlValue` plus `null`), consumed by the validator as JS `unknown`. -/
inductive Value where
  | str (s : String)
  | num (n : Rat)
  | bool (b : Bool)
  | null
  | arr (elems : List Value)
  | obj (fields : List (String × Value))

/-- JS object property read `fields[k]`: first match. -/
def lookupField (fields : List (String × Value)) (k : String) : Option Value :=
  match fields with
  | [] => none
  | (k', v) :: rest => if k' = k then some v else lookupField rest k

/-- JS object property write `fields[k] = v`: overwrite in place if the key
exists, else append (insertion order preserved). -/
def setField (fields : List (String × Value)) (k : String) (v : Value) :
    List (String × Value) :=
  match fields with
  | [] => [(k, v)]
  | (k', v') :: rest =>
    if k' = k then (k', v) :: rest else (k', v') :: setField rest k v

/-- type-utils.ts `getActualType`. -/
def getActualType : Value → String
  | .null => "null"
  | .arr _ => "array"
  | .str _ => "string"
  | .num _ => "number"
  | .bool _ => "boolean"
  | .obj _ => "object"

/-- The scalar payload of a `literal` type kind (string | number | boolean). -/
inductive LitVal where
  | s (v : String)
  | n (v : Rat)
  | b (v : Bool)
deriving DecidableEq

/-- JS strict equality `value === lit` between an unknown value and a
literal scalar. -/
def litEq (lv : LitVal) (v : Value) : Bool :=
  match lv, v with
  | .s a, .str b => a = b
  | .n a, .num b => a = b
  | .b a, .bool b => a = b
  | _, _ => false

/-- types.ts `TypeInfo`.  An object property is `(name, optional, type)`. -/
inductive TypeInfo where
  | string
  | number
  | boolean
  | null
  | undefined
  | any
  | unknown
  | literal (value : LitVal)
  | array (elementType : TypeInfo)
  | object (properties : List (String × Bool × TypeInfo))
  | union (types : List TypeInfo)
  | intersection (types : List TypeInfo)

/-- types.ts `ValidationError["code"]`. -/
inductive ErrCode where
  | MISSING_PROPERTY
  | TYPE_MISMATCH
  | EXTRA_PROPERTY
  | INVALID_FRONTMATTER
  | TYPE_NOT_FOUND
  | FILE_NOT_FOUND
  | MISSING_SCHEMA_ANNOTATION
  | SCHEMA_NOT_FOUND
  | INVALID_JSON
  | INVALID_SCHEMA
  | ZOD_VALIDATION_ERROR
  | JSONSCHEMA_VALIDATION_ERROR
  | MULTIPLE_SCHEMAS_FOUND
  | NO_SCHEMA_IN_FILE
deriving DecidableEq

/-- types.ts `ValidationError`. -/
structure ValidationError where
  code : ErrCode
  message : String
  path : Option String := none
  expected : Option String := none
  actual : Option String := none
deriving DecidableEq

/-- types.ts `LintOptions`.  The TS fields are optional booleans and every
consumer reads them by truthiness, so `false` models an absent field. -/
structure LintOptions where
  allowExtraProps : Bool := false
  requireSchema : Bool := false
  noAutoSchema : Bool := false

/-- Integer `Int.repr` matches JS `String(n)` for integral numbers. -/
def jsIntRepr (n : Int) : String := n.repr

/-- Decimal rendering of a rational whose denominator divides `10 ^ k`. -/
def ratDecimalRepr (q : Rat) (k : Nat) : String :=
  let scaled := q.num.natAbs * 10 ^ k / q.den
  let whole := scaled / 10 ^ k
  let frac := scaled % 10 ^ k
  let fracStr := Nat.repr frac
  let pad := String.mk (List.replicate (k - fracStr.length) '0') ++ fracStr
  (if q.num < 0 then "-" else "") ++ Nat.repr whole ++ "." ++ pad

/-- JS `String(n)` for the numbers this system produces: integers print as
integers, terminating decimals with their (shortest) decimal digits.
Non-decimal rationals cannot arise from the parsers. -/
def jsNumToString (q : Rat) : String :=
  if q.den = 1 then jsIntRepr q.num
  else
    match (List.range 40).find? (fun k => q.den ∣ 10 ^ k) with
    | some k => ratDecimalRepr q k
    | none => jsIntRepr q.num ++ "/" ++ Nat.repr q.den

def lbrace : Char := Char.ofNat 123
def rbrace : Char := Char.ofNat 125

/-- JSON string escaping (the escapes relevant to frontmatter text). -/
def escapeJsonChar (c : Char) : List Char :=
  if c = '"' then ['\\', '"']
  else if c = '\\' then ['\\', '\\']
  else if c = '\n' then ['\\', 'n']
  else if c = '\t' then ['\\', 't']
  else if c = '\r' then ['\\', 'r']
  else [c]

def jsonQuote (s : String) : String :=
  String.mk ('"' :: s.data.flatMap escapeJsonChar ++ ['"'])

/-- `JSON.stringify` on a parsed value tree. -/
def jsonStringify : Value → String
  | .str s => jsonQuote s
  | .num n => jsNumToString n
  | .bool true => "true"
  | .bool false => "false"
  | .null => "null"
  | .arr xs => "[" ++ String.intercalate "," (xs.attach.map (fun x => jsonStringify x.1)) ++ "]"
  | .obj fs =>
    String.mk [lbrace] ++
      String.intercalate ","
        (fs.attach.map (fun kv => jsonQuote kv.1.1 ++ ":" ++ jsonStringify kv.1.2)) ++
      String.mk [rbrace]
termination_by v => sizeOf v
decreasing_by
  · have := List.sizeOf_lt_of_mem x.2
    simp only [Value.arr.sizeOf_spec]
    omega
  · have := List.sizeOf_lt_of_mem kv.2
    have h2 : sizeOf kv.1.2 < sizeOf kv.1 := by
      obtain ⟨a, b⟩ := kv.1
      simp only [Prod.mk.sizeOf_spec]
      omega
    simp only [Value.obj.sizeOf_spec]
    omega

/-- `JSON.stringify` of a literal scalar. -/
def litToJson : LitVal → String
  | .s v => jsonQuote v
  | .n v => jsNumToString v
  | .b true => "true"
  | .b false => "false"

/-- type-extractor.ts `typeInfoToString`: the literal-string case uses a
template literal (unescaped quotes). -/
def typeInfoToString : TypeInfo → String
  | .string => "string"
  | .number => "number"
  | .boolean => "boolean"
  | .null => "null"
  | .undefined => "undefined"
  | .any => "any"
  | .unknown => "unknown"
  | .literal (.s v) => "\"" ++ v ++ "\""
  | .literal (.n v) => jsNumToString v
  | .literal (.b true) => "true"
  | .literal (.b false) => "false"
  | .array et => typeInfoToString et ++ "[]"
  | .object props =>
    if props.isEmpty then String.mk [lbrace, rbrace]
    else
      String.mk [lbrace, ' '] ++
        String.intercalate ", "
          (props.attach.map (fun p =>
            p.1.1 ++ (if p.1.2.1 then "?" else "") ++ ": " ++ typeInfoToString p.1.2.2)) ++
        String.mk [' ', rbrace]
  | .union ts => String.intercalate " | " (ts.attach.map (fun t => typeInfoToString t.1))
  | .intersection ts => String.intercalate " & " (ts.attach.map (fun t => typeInfoToString t.1))
termination_by t => sizeOf t
decreasing_by
  · simp only [TypeInfo.array.sizeOf_spec]; omega
  · have := List.sizeOf_lt_of_mem p.2
    have h2 : sizeOf p.1.2.2 < sizeOf p.1 := by
      obtain ⟨a, b, c⟩ := p.1
      simp only [Prod.mk.sizeOf_spec]
      omega
    simp only [TypeInfo.object.sizeOf_spec]
    omega
  · have := List.sizeOf_lt_of_mem t.2
    simp only [TypeInfo.union.sizeOf_spec]
    omega
  · have := List.sizeOf_lt_of_mem t.2
    simp only [TypeInfo.intersection.sizeOf_spec]
    omega

/-- A TYPE_MISMATCH error as validator.ts builds them: `expectedMsg` is the
text in the message, `expectedField` the `expected` descriptor. -/
def typeMismatchError (path expectedMsg expectedField actualStr : String) : ValidationError :=
  { code := .TYPE_MISMATCH
    message := "'" ++ jsOrRoot path ++ "' expected " ++ expectedMsg ++
      ", but received " ++ actualStr
    path := pathOpt path
    expected := some expectedField
    actual := some actualStr }

def missingPropertyError (propPath : String) (expectedType : TypeInfo) : ValidationError :=
  { code := .MISSING_PROPERTY
    message := "Required property '" ++ propPath ++ "' is missing"
    path := some propPath
    expected := some (typeInfoToString expectedType) }

def extraPropertyError (propPath : String) : ValidationError :=
  { code := .EXTRA_PROPERTY
    message := "Property '" ++ propPath ++ "' is not defined in schema"
    path := some propPath }

/-- validator.ts `validateValue`.  The TS function pushes onto a shared
`errors` array; here each call returns the list of errors it pushes, in
push order, and sequential pushes/loops become `++`/`flatMap`.  The union
case's per-member trial arrays are the recursive calls' return values, and
`Array.prototype.some`-style short-circuiting is `List.any`. -/
def validateValue (value : Value) (typeInfo : TypeInfo) (path : String)
    (opts : LintOptions) : List ValidationError :=
  match typeInfo with
  | .string =>
    match value with
    | .str _ => []
    | v => [typeMismatchError path "string" "string" (getActualType v)]
  | .number =>
    match value with
    | .num _ => []
    | v => [typeMismatchError path "number" "number" (getActualType v)]
  | .boolean =>
    match value with
    | .bool _ => []
    | v => [typeMismatchError path "boolean" "boolean" (getActualType v)]
  | .null =>
    match value with
    | .null => []
    | v => [typeMismatchError path "null" "null" (getActualType v)]
  | .undefined =>
    -- no value in a parsed tree is `undefined`
    [typeMismatchError path "undefined" "undefined" (getActualType value)]
  | .any => []
  | .unknown => []
  | .literal lv =>
    if litEq lv value then []
    else [typeMismatchError path (litToJson lv) (litToJson lv) (jsonStringify value)]
  | .array et =>
    match value with
    | .arr xs => xs.enum.flatMap (fun p => validateValue p.2 et (idxPath path p.1) opts)
    | v => [typeMismatchError path "array" "array" (getActualType v)]
  | .object props =>
    match value with
    | .obj fields =>
      (props.attach.flatMap (fun pp =>
        let propPath := joinPath path pp.1.1
        match lookupField fields pp.1.1 with
        | none => if pp.1.2.1 then [] else [missingPropertyError propPath pp.1.2.2]
        | some v' => validateValue v' pp.1.2.2 propPath opts)) ++
      (if opts.allowExtraProps then []
       else
         (fields.filter (fun kv => ! props.any (fun p => p.1 = kv.1))).map
           (fun kv => extraPropertyError (joinPath path kv.1)))
    | v => [typeMismatchError path "object" "object" (getActualType v)]
  | .union ts =>
    if ts.attach.any (fun tt => (validateValue value tt.1 path opts).isEmpty) then []
    else
      [typeMismatchError path ("one of " ++ typeInfoToString (.union ts))
        (typeInfoToString (.union ts)) (getActualType value)]
  | .intersection ts =>
    ts.attach.flatMap (fun tt => validateValue value tt.1 path opts)
termination_by sizeOf typeInfo
decreasing_by
  all_goals
    first
    | (simp only [TypeInfo.array.sizeOf_spec]; omega)
    | (have hmem := List.sizeOf_lt_of_mem pp.2
       have h2 : sizeOf pp.1.2.2 < sizeOf pp.1 := by
         obtain ⟨a, b, c⟩ := pp.1
         simp only [Prod.mk.sizeOf_spec]
         omega
       simp only [TypeInfo.object.sizeOf_spec]
       omega)
    | (have hmem := List.sizeOf_lt_of_mem tt.2
       simp only [TypeInfo.union.sizeOf_spec]
       omega)
    | (have hmem := List.sizeOf_lt_of_mem tt.2
       simp only [TypeInfo.intersection.sizeOf_spec]
       omega)

/-- validator.ts `validate`: entry point, root path `""`. -/
def validate (value : Value) (typeInfo : TypeInfo)
    (opts : LintOptions := {}) (path : String := "") : List ValidationError :=
  validateValue value typeInfo path opts

end FmLint

namespace FmLint

/-! ## Helper lemmas: eliminating `attach` from the recursive definitions -/

theorem attach_any_val (l : List α) (g : α → Bool) :
    l.attach.any (fun x => g x.1) = l.any g := by
  rcases h : l.any g with _ | _
  · rw [List.any_eq_false] at h
    rw [List.any_eq_false]
    intro x hx
    exact h x.1 x.2
  · rw [List.any_eq_true] at h ⊢
    obtain ⟨x, hx, hgx⟩ := h
    exact ⟨⟨x, hx⟩, List.mem_attach _ _, hgx⟩

theorem attach_flatMap_val (l : List α) (f : α → List β) :
    l.attach.flatMap (fun x => f x.1) = l.flatMap f := by
  simp only [List.flatMap_subtype, List.unattach_attach]

theorem attach_map_val' (l : List α) (f : α → β) :
    l.attach.map (fun x => f x.1) = l.map f := List.attach_map_val l f

/-! ## Unfolding characterizations of `validateValue` per type kind -/

theorem validateValue_union (v : Value) (ts : List TypeInfo) (path : String)
    (opts : LintOptions) :
    validateValue v (.union ts) path opts =
      if ts.any (fun t => (validateValue v t path opts).isEmpty) then []
      else
        [typeMismatchError path ("one of " ++ typeInfoToString (.union ts))
          (typeInfoToString (.union ts)) (getActualType v)] := by
  rw [validateValue]
  rw [attach_any_val ts (fun t => (validateValue v t path opts).isEmpty)]

theorem validateValue_intersection (v : Value) (ts : List TypeInfo) (path : String)
    (opts : LintOptions) :
    validateValue v (.intersection ts) path opts =
      ts.flatMap (fun t => validateValue v t path opts) := by
  rw [validateValue]
  exact attach_flatMap_val ts (fun t => validateValue v t path opts)

/-- The per-property errors of the object case (declared-property pass). -/
def propErrors (fields : List (String × Value)) (path : String) (opts : LintOptions)
    (p : String × Bool × TypeInfo) : List ValidationError :=
  let propPath := joinPath path p.1
  match lookupField fields p.1 with
  | none => if p.2.1 then [] else [missingPropertyError propPath p.2.2]
  | some v' => validateValue v' p.2.2 propPath opts

/-- The extra-property errors of the object case (strict-mode pass). -/
def extraErrors (props : List (String × Bool × TypeInfo))
    (fields : List (String × Value)) (path : String) : List ValidationError :=
  (fields.filter (fun kv => ! props.any (fun p => p.1 = kv.1))).map
    (fun kv => extraPropertyError (joinPath path kv.1))

theorem validateValue_object (fields : List (String × Value))
    (props : List (String × Bool × TypeInfo)) (path : String) (opts : LintOptions) :
    validateValue (.obj fields) (.object props) path opts =
      props.flatMap (propErrors fields path opts) ++
      (if opts.allowExtraProps then [] else extraErrors props fields path) := by
  rw [validateValue]
  congr 1
  rw [← attach_flatMap_val props (propErrors fields path opts)]
  rfl

theorem validateValue_array (xs : List Value) (et : TypeInfo) (path : String)
    (opts : LintOptions) :
    validateValue (.arr xs) (.array et) path opts =
      xs.enum.flatMap (fun p => validateValue p.2 et (idxPath path p.1) opts) := by
  rw [validateValue]

end FmLint

namespace FmLint

/-- C1 -/
theorem c1_union_short_circuit (ts : List TypeInfo) (v : Value) (path : String)
    (opts : LintOptions) :
    (validateValue v (.union ts) path opts =
      if ts.any (fun t => (validateValue v t path opts).isEmpty) then []
      else
        [{ code := .TYPE_MISMATCH
           message := "'" ++ jsOrRoot path ++ "' expected " ++
             ("one of " ++ String.intercalate " | " (ts.map typeInfoToString)) ++
             ", but received " ++ getActualType v
           path := pathOpt path
           expected := some (String.intercalate " | " (ts.map typeInfoToString))
           actual := some (getActualType v) }]) ∧
    typeInfoToString (.union ts) = String.intercalate " | " (ts.map typeInfoToString) := by
  have hrender : typeInfoToString (.union ts) = String.intercalate " | " (ts.map typeInfoToString) := by
    rw [typeInfoToString]
    rw [attach_map_val' ts typeInfoToString]
  refine ⟨?_, hrender⟩
  rw [validateValue_union, hrender]
  rfl

/-- C4 -/
theorem c4_error_paths :
    validate (.obj [("a", .obj [("b", .str "wrong-type")])])
        (.object [("a", false, .object [("b", false, .number)])]) {} =
      [{ code := .TYPE_MISMATCH
         message := "'a.b' expected number, but received string"
         path := some "a.b"
         expected := some "number"
         actual := some "string" }] ∧
    validate (.arr [.num 1, .str "two", .num 3]) (.array .number) {} =
      [{ code := .TYPE_MISMATCH
         message := "'[1]' expected number, but received string"
         path := some "[1]"
         expected := some "number"
         actual := some "string" }] := by
  constructor
  · simp [validate, validateValue, lookupField, joinPath, typeMismatchError,
      getActualType, List.attach, List.attachWith, jsOrRoot, pathOpt]
  · simp [validate, validateValue, idxPath, typeMismatchError, getActualType,
      jsOrRoot, pathOpt, List.enum, List.enumFrom, Nat.repr]
    decide

end FmLint

namespace FmLint

/-- `Object.keys(obj)` in insertion order. -/
def objKeys (fields : List (String × Value)) : List String := fields.map Prod.fst

theorem extraErrors_by_keys (props : List (String × Bool × TypeInfo))
    (fields : List (String × Value)) (path : String) :
    extraErrors props fields path =
      ((objKeys fields).filter (fun k => ! props.any (fun p => p.1 = k))).map
        (fun k => extraPropertyError (joinPath path k)) := by
  induction fields with
  | nil => rfl
  | cons kv rest ih =>
    simp only [extraErrors, objKeys, List.map_cons, List.filter_cons] at *
    by_cases h : (! props.any (fun p => p.1 = kv.1)) = true
    · simp only [h, if_pos, List.map_cons]
      exact congrArg _ ih
    · simp only [Bool.not_eq_true] at h
      simp only [h, Bool.false_eq_true, if_neg, not_false_iff]
      exact ih

/-- C3 -/
theorem c3_object_error_order (fields : List (String × Value))
    (props : List (String × Bool × TypeInfo)) (path : String) (rs na : Bool) :
    validateValue (.obj fields) (.object props) path ⟨false, rs, na⟩ =
      props.flatMap (propErrors fields path ⟨false, rs, na⟩) ++
      ((objKeys fields).filter (fun k => ! props.any (fun p => p.1 = k))).map
        (fun k => extraPropertyError (joinPath path k)) := by
  rw [validateValue_object, extraErrors_by_keys]
  rfl

end FmLint

namespace FmLint

theorem attach_all_val (l : List α) (g : α → Bool) :
    l.attach.all (fun x => g x.1) = l.all g := by
  rcases h : l.all g with _ | _
  · rw [List.all_eq_false] at h
    obtain ⟨x, hx, hgx⟩ := h
    rw [List.all_eq_false]
    exact ⟨⟨x, hx⟩, List.mem_attach _ _, hgx⟩
  · rw [List.all_eq_true] at h ⊢
    intro x _
    exact h x.1 x.2

/-- Whether a type mentions no union anywhere. -/
def unionFree : TypeInfo → Bool
  | .union _ => false
  | .array et => unionFree et
  | .object props => props.attach.all (fun p => unionFree p.1.2.2)
  | .intersection ts => ts.attach.all (fun t => unionFree t.1)
  | _ => true
termination_by t => sizeOf t
decreasing_by
  all_goals
    first
    | (simp only [TypeInfo.array.sizeOf_spec]; omega)
    | (have hmem := List.sizeOf_lt_of_mem p.2
       have h2 : sizeOf p.1.2.2 < sizeOf p.1 := by
         obtain ⟨a, b, c⟩ := p.1
         simp only [Prod.mk.sizeOf_spec]
         omega
       simp only [TypeInfo.object.sizeOf_spec]
       omega)
    | (have hmem := List.sizeOf_lt_of_mem t.2
       simp only [TypeInfo.intersection.sizeOf_spec]
       omega)

theorem unionFree_object (props : List (String × Bool × TypeInfo)) :
    unionFree (.object props) = props.all (fun p => unionFree p.2.2) := by
  rw [unionFree]
  exact attach_all_val props (fun p => unionFree p.2.2)

theorem unionFree_intersection (ts : List TypeInfo) :
    unionFree (.intersection ts) = ts.all unionFree := by
  rw [unionFree]
  exact attach_all_val ts unionFree

/-- An error is not an extra-property report. -/
def nonExtra (e : ValidationError) : Bool := e.code ≠ ErrCode.EXTRA_PROPERTY

theorem filter_flatMap_aux (l : List α) (f : α → List β) (p : β → Bool) :
    (l.flatMap f).filter p = l.flatMap (fun x => (f x).filter p) := by
  induction l with
  | nil => rfl
  | cons x rest ih =>
    simp only [List.flatMap_cons, List.filter_append, ih]

theorem filter_extraErrors (props : List (String × Bool × TypeInfo))
    (fields : List (String × Value)) (path : String) :
    (extraErrors props fields path).filter nonExtra = [] := by
  rw [extraErrors_by_keys]
  induction (objKeys fields).filter (fun k => ! props.any (fun p => p.1 = k)) with
  | nil => rfl
  | cons k rest ih =>
    simp only [List.map_cons, List.filter_cons]
    have : nonExtra (extraPropertyError (joinPath path k)) = false := by
      simp [nonExtra, extraPropertyError]
    rw [this]
    simpa using ih

end FmLint

namespace FmLint

theorem no_extra_aux (n : Nat) :
    ∀ (t : TypeInfo), sizeOf t = n →
    ∀ (v : Value) (path : String) (rs na : Bool) (e : ValidationError),
      e ∈ validateValue v t path ⟨true, rs, na⟩ → e.code ≠ ErrCode.EXTRA_PROPERTY := by
  induction n using Nat.strong_induction_on with
  | _ n IH =>
  intro t hn v path rs na e he
  subst hn
  cases t with
  | string =>
    cases v <;> simp only [validateValue, List.mem_singleton, List.not_mem_nil] at he <;>
      first | exact absurd he (by simp) | (subst he; simp [typeMismatchError])
  | number =>
    cases v <;> simp only [validateValue, List.mem_singleton, List.not_mem_nil] at he <;>
      first | exact absurd he (by simp) | (subst he; simp [typeMismatchError])
  | boolean =>
    cases v <;> simp only [validateValue, List.mem_singleton, List.not_mem_nil] at he <;>
      first | exact absurd he (by simp) | (subst he; simp [typeMismatchError])
  | null =>
    cases v <;> simp only [validateValue, List.mem_singleton, List.not_mem_nil] at he <;>
      first | exact absurd he (by simp) | (subst he; simp [typeMismatchError])
  | undefined =>
    simp only [validateValue, List.mem_singleton] at he
    subst he; simp [typeMismatchError]
  | any => simp [validateValue] at he
  | unknown => simp [validateValue] at he
  | literal lv =>
    rw [validateValue] at he
    by_cases h : litEq lv v = true
    · simp [h] at he
    · simp only [Bool.not_eq_true] at h
      simp only [h, Bool.false_eq_true, if_neg, not_false_iff, List.mem_singleton] at he
      subst he; simp [typeMismatchError]
  | array et =>
    cases v with
    | arr xs =>
      rw [validateValue_array] at he
      rw [List.mem_flatMap] at he
      obtain ⟨⟨i, x⟩, hx, hex⟩ := he
      have hsz : sizeOf et < sizeOf (TypeInfo.array et) := by
        simp only [TypeInfo.array.sizeOf_spec]; omega
      exact IH (sizeOf et) hsz et rfl x _ rs na e hex
    | str s => simp only [validateValue, List.mem_singleton] at he; subst he; simp [typeMismatchError]
    | num q => simp only [validateValue, List.mem_singleton] at he; subst he; simp [typeMismatchError]
    | bool b => simp only [validateValue, List.mem_singleton] at he; subst he; simp [typeMismatchError]
    | null => simp only [validateValue, List.mem_singleton] at he; subst he; simp [typeMismatchError]
    | obj fs => simp only [validateValue, List.mem_singleton] at he; subst he; simp [typeMismatchError]
  | object props =>
    cases v with
    | obj fields =>
      rw [validateValue_object] at he
      rw [List.mem_append] at he
      rcases he with he | he
      · rw [List.mem_flatMap] at he
        obtain ⟨p, hp, hep⟩ := he
        have hsz : sizeOf p.2.2 < sizeOf (TypeInfo.object props) := by
          have h1 := List.sizeOf_lt_of_mem hp
          have h2 : sizeOf p.2.2 < sizeOf p := by
            obtain ⟨a, b, c⟩ := p
            simp only [Prod.mk.sizeOf_spec]
            omega
          simp only [TypeInfo.object.sizeOf_spec]
          omega
        simp only [propErrors] at hep
        rcases hlk : lookupField fields p.1 with _ | v'
        · rw [hlk] at hep
          rcases hop : p.2.1 with _ | _
          · rw [hop] at hep
            simp only [Bool.false_eq_true, if_neg, not_false_iff, List.mem_singleton] at hep
            subst hep
            simp [missingPropertyError]
          · rw [hop] at hep
            simp at hep
        · rw [hlk] at hep
          exact IH (sizeOf p.2.2) hsz p.2.2 rfl v' _ rs na e hep
      · simp only [LintOptions.allowExtraProps] at he
        simp at he
    | str s => simp only [validateValue, List.mem_singleton] at he; subst he; simp [typeMismatchError]
    | num q => simp only [validateValue, List.mem_singleton] at he; subst he; simp [typeMismatchError]
    | bool b => simp only [validateValue, List.mem_singleton] at he; subst he; simp [typeMismatchError]
    | null => simp only [validateValue, List.mem_singleton] at he; subst he; simp [typeMismatchError]
    | arr xs => simp only [validateValue, List.mem_singleton] at he; subst he; simp [typeMismatchError]
  | union ts =>
    rw [validateValue_union] at he
    by_cases h : (ts.any (fun t => (validateValue v t path ⟨true, rs, na⟩).isEmpty)) = true
    · simp [h] at he
    · simp only [Bool.not_eq_true] at h
      simp only [h, Bool.false_eq_true, if_neg, not_false_iff, List.mem_singleton] at he
      subst he; simp [typeMismatchError]
  | intersection ts =>
    rw [validateValue_intersection] at he
    rw [List.mem_flatMap] at he
    obtain ⟨t', ht', het⟩ := he
    have hsz : sizeOf t' < sizeOf (TypeInfo.intersection ts) := by
      have := List.sizeOf_lt_of_mem ht'
      simp only [TypeInfo.intersection.sizeOf_spec]
      omega
    exact IH (sizeOf t') hsz t' rfl v path rs na e het

end FmLint

namespace FmLint

theorem flatMap_congr_mem (l : List α) (f g : α → List β)
    (h : ∀ x ∈ l, f x = g x) : l.flatMap f = l.flatMap g := by
  induction l with
  | nil => rfl
  | cons x rest ih =>
    simp only [List.flatMap_cons]
    rw [h x (List.mem_cons_self x rest), ih (fun y hy => h y (List.mem_cons_of_mem x hy))]

theorem filter_strict_aux (n : Nat) :
    ∀ (t : TypeInfo), sizeOf t = n → unionFree t = true →
    ∀ (v : Value) (path : String) (rs na : Bool),
      (validateValue v t path ⟨false, rs, na⟩).filter nonExtra =
        validateValue v t path ⟨true, rs, na⟩ := by
  induction n using Nat.strong_induction_on with
  | _ n IH =>
  intro t hn huf v path rs na
  subst hn
  cases t with
  | string => cases v <;> simp [validateValue, nonExtra, typeMismatchError]
  | number => cases v <;> simp [validateValue, nonExtra, typeMismatchError]
  | boolean => cases v <;> simp [validateValue, nonExtra, typeMismatchError]
  | null => cases v <;> simp [validateValue, nonExtra, typeMismatchError]
  | undefined => simp [validateValue, nonExtra, typeMismatchError]
  | any => simp [validateValue]
  | unknown => simp [validateValue]
  | literal lv =>
    by_cases h : litEq lv v = true
    · simp [validateValue, h]
    · simp only [Bool.not_eq_true] at h
      simp [validateValue, h, nonExtra, typeMismatchError]
  | array et =>
    cases v with
    | arr xs =>
      rw [validateValue_array, validateValue_array, filter_flatMap_aux]
      refine flatMap_congr_mem _ _ _ (fun p _ => ?_)
      have hsz : sizeOf et < sizeOf (TypeInfo.array et) := by
        simp only [TypeInfo.array.sizeOf_spec]; omega
      have huf' : unionFree et = true := by
        rw [unionFree] at huf; exact huf
      exact IH (sizeOf et) hsz et rfl huf' p.2 _ rs na
    | str s => simp [validateValue, nonExtra, typeMismatchError]
    | num q => simp [validateValue, nonExtra, typeMismatchError]
    | bool b => simp [validateValue, nonExtra, typeMismatchError]
    | null => simp [validateValue, nonExtra, typeMismatchError]
    | obj fs => simp [validateValue, nonExtra, typeMismatchError]
  | object props =>
    cases v with
    | obj fields =>
      rw [validateValue_object, validateValue_object]
      simp only [LintOptions.allowExtraProps]
      rw [if_neg (by simp), if_pos trivial]
      rw [List.filter_append, filter_extraErrors, filter_flatMap_aux,
        List.append_nil, List.append_nil]
      refine flatMap_congr_mem _ _ _ (fun p hp => ?_)
      have huf' : unionFree p.2.2 = true := by
        rw [unionFree_object, List.all_eq_true] at huf
        exact huf p hp
      simp only [propErrors]
      rcases hlk : lookupField fields p.1 with _ | v'
      · rcases hop : p.2.1 with _ | _
        · simp [nonExtra, missingPropertyError]
        · simp
      · have hsz : sizeOf p.2.2 < sizeOf (TypeInfo.object props) := by
          have h1 := List.sizeOf_lt_of_mem hp
          have h2 : sizeOf p.2.2 < sizeOf p := by
            obtain ⟨a, b, c⟩ := p
            simp only [Prod.mk.sizeOf_spec]
            omega
          simp only [TypeInfo.object.sizeOf_spec]
          omega
        exact IH (sizeOf p.2.2) hsz p.2.2 rfl huf' v' _ rs na
    | str s => simp [validateValue, nonExtra, typeMismatchError]
    | num q => simp [validateValue, nonExtra, typeMismatchError]
    | bool b => simp [validateValue, nonExtra, typeMismatchError]
    | null => simp [validateValue, nonExtra, typeMismatchError]
    | arr xs => simp [validateValue, nonExtra, typeMismatchError]
  | union ts => simp [unionFree] at huf
  | intersection ts =>
    rw [validateValue_intersection, validateValue_intersection, filter_flatMap_aux]
    refine flatMap_congr_mem _ _ _ (fun t' ht' => ?_)
    have huf' : unionFree t' = true := by
      rw [unionFree_intersection, List.all_eq_true] at huf
      exact huf t' ht'
    have hsz : sizeOf t' < sizeOf (TypeInfo.intersection ts) := by
      have := List.sizeOf_lt_of_mem ht'
      simp only [TypeInfo.intersection.sizeOf_spec]
      omega
    exact IH (sizeOf t') hsz t' rfl huf' v path rs na

end FmLint

namespace FmLint

/-- C2 (amended) -/
theorem c2_strictness_amended :
    (∀ (v : Value) (t : TypeInfo) (path : String) (rs na : Bool)
        (e : ValidationError), e ∈ validateValue v t path ⟨true, rs, na⟩ →
        e.code ≠ ErrCode.EXTRA_PROPERTY) ∧
    (∀ (v : Value) (t : TypeInfo) (path : String) (rs na : Bool),
        unionFree t = true →
        (validateValue v t path ⟨false, rs, na⟩).filter nonExtra =
          validateValue v t path ⟨true, rs, na⟩) :=
  ⟨fun v t path rs na e he => no_extra_aux (sizeOf t) t rfl v path rs na e he,
   fun v t path rs na huf => filter_strict_aux (sizeOf t) t rfl huf v path rs na⟩

/-- C2 witness -/
theorem c2_strictness_amended_witness :
    ((validateValue (.obj [("title", .str "x"), ("extra", .num 1)])
        (.object [("title", false, .string)]) "" ⟨false, false, false⟩).filter nonExtra =
      validateValue (.obj [("title", .str "x"), ("extra", .num 1)])
        (.object [("title", false, .string)]) "" ⟨true, false, false⟩) ∧
    (validateValue (.obj [("title", .str "x")]) (.object [("title", false, .string)])
        "" ⟨true, false, false⟩).all (fun e => nonExtra e) = true :=
  ⟨c2_strictness_amended.2 _ _ _ _ _
    (by simp [unionFree, List.attach, List.attachWith]),
   by
    rw [List.all_eq_true]
    intro e he
    have := c2_strictness_amended.1 _ _ _ _ _ e he
    simp [nonExtra, this]⟩

/-- C2 counterexample -/
theorem c2_strictness_counterexample :
    validateValue (.obj [("a", .num 1), ("b", .num 2)])
        (.union [.object [("a", false, .number)]]) "" ⟨true, false, false⟩ = [] ∧
    (validateValue (.obj [("a", .num 1), ("b", .num 2)])
        (.union [.object [("a", false, .number)]]) "" ⟨false, false, false⟩).map
      (fun e => e.code) = [ErrCode.TYPE_MISMATCH] := by
  constructor
  · simp [validateValue, List.attach, List.attachWith, lookupField, joinPath,
      typeMismatchError, getActualType, propErrors, extraErrors]
  · simp [validateValue, List.attach, List.attachWith, lookupField, joinPath,
      typeMismatchError, getActualType, propErrors, extraErrors, extraPropertyError]

end FmLint

namespace FmLint

/-- A usable property name: nonempty, no dot, no bracket (so that its
error path cannot collide with a nested property's path). -/
def goodName (s : String) : Bool :=
  !(s = "") && s.data.all (fun c => !(c = '.') && !(c = '['))

theorem data_append3 (a b c : String) : (a ++ b ++ c).data = a.data ++ b.data ++ c.data := by
  rw [String.data_append, String.data_append]

theorem joinPath_data (path name : String) (h : path ≠ "") :
    (joinPath path name).data = path.data ++ '.' :: name.data := by
  rw [joinPath, if_neg h, data_append3]
  simp

theorem idxPath_data (path : String) (i : Nat) (h : path ≠ "") :
    (idxPath path i).data = path.data ++ '[' :: ((Nat.repr i).data ++ "]".data) := by
  rw [idxPath, if_neg h]
  rw [show path ++ "[" ++ Nat.repr i ++ "]" = path ++ "[" ++ (Nat.repr i ++ "]") by
    rw [String.append_assoc]]
  rw [data_append3]
  simp

theorem ne_empty_of_data (s : String) (c : Char) (l : List Char)
    (h : s.data = c :: l) : s ≠ "" := by
  intro he
  rw [he] at h
  exact absurd h (by simp [String.data])

theorem ne_empty_of_data_append (s : String) (l : List Char) (c : Char) (r : List Char)
    (h : s.data = l ++ c :: r) : s ≠ "" := by
  intro he
  rw [he] at h
  have : ([] : List Char) = l ++ c :: r := h
  exact absurd this.symm (by simp)

/-- Every MISSING_PROPERTY error produced by a call at a non-root path has
a path that strictly extends the call path through a `.` or `[` segment. -/
theorem missing_path_shape (n : Nat) :
    ∀ (t : TypeInfo), sizeOf t = n →
    ∀ (v : Value) (path : String) (opts : LintOptions) (e : ValidationError),
      path ≠ "" → e ∈ validateValue v t path opts →
      e.code = ErrCode.MISSING_PROPERTY →
      ∃ (c : Char) (r : List Char), (c = '.' ∨ c = '[') ∧
        ∃ s, e.path = some s ∧ s.data = path.data ++ c :: r := by
  induction n using Nat.strong_induction_on with
  | _ n IH =>
  intro t hn v path opts e hpath he hcode
  subst hn
  cases t with
  | string =>
    cases v <;> simp only [validateValue, List.mem_singleton, List.not_mem_nil] at he <;>
      first
      | exact absurd he (by simp)
      | (subst he; simp [typeMismatchError] at hcode)
  | number =>
    cases v <;> simp only [validateValue, List.mem_singleton, List.not_mem_nil] at he <;>
      first
      | exact absurd he (by simp)
      | (subst he; simp [typeMismatchError] at hcode)
  | boolean =>
    cases v <;> simp only [validateValue, List.mem_singleton, List.not_mem_nil] at he <;>
      first
      | exact absurd he (by simp)
      | (subst he; simp [typeMismatchError] at hcode)
  | null =>
    cases v <;> simp only [validateValue, List.mem_singleton, List.not_mem_nil] at he <;>
      first
      | exact absurd he (by simp)
      | (subst he; simp [typeMismatchError] at hcode)
  | undefined =>
    simp only [validateValue, List.mem_singleton] at he
    subst he; simp [typeMismatchError] at hcode
  | any => simp [validateValue] at he
  | unknown => simp [validateValue] at he
  | literal lv =>
    rw [validateValue] at he
    by_cases h : litEq lv v = true
    · simp [h] at he
    · simp only [Bool.not_eq_true] at h
      simp only [h, Bool.false_eq_true, if_neg, not_false_iff, List.mem_singleton] at he
      subst he; simp [typeMismatchError] at hcode
  | array et =>
    cases v with
    | arr xs =>
      rw [validateValue_array] at he
      rw [List.mem_flatMap] at he
      obtain ⟨⟨i, x⟩, hx, hex⟩ := he
      have hsz : sizeOf et < sizeOf (TypeInfo.array et) := by
        simp only [TypeInfo.array.sizeOf_spec]; omega
      have hpath' : idxPath path i ≠ "" := by
        apply ne_empty_of_data_append _ path.data '[' ((Nat.repr i).data ++ "]".data)
        exact idxPath_data path i hpath
      obtain ⟨c, r, hc, s, hs, hsdata⟩ :=
        IH (sizeOf et) hsz et rfl x (idxPath path i) opts e hpath' hex hcode
      refine ⟨'[', (Nat.repr i).data ++ "]".data ++ c :: r, Or.inr rfl, s, hs, ?_⟩
      rw [hsdata, idxPath_data path i hpath]
      simp
    | str s => simp only [validateValue, List.mem_singleton] at he; subst he; simp [typeMismatchError] at hcode
    | num q => simp only [validateValue, List.mem_singleton] at he; subst he; simp [typeMismatchError] at hcode
    | bool b => simp only [validateValue, List.mem_singleton] at he; subst he; simp [typeMismatchError] at hcode
    | null => simp only [validateValue, List.mem_singleton] at he; subst he; simp [typeMismatchError] at hcode
    | obj fs => simp only [validateValue, List.mem_singleton] at he; subst he; simp [typeMismatchError] at hcode
  | object props =>
    cases v with
    | obj fields =>
      rw [validateValue_object] at he
      rw [List.mem_append] at he
      rcases he with he | he
      · rw [List.mem_flatMap] at he
        obtain ⟨p, hp, hep⟩ := he
        simp only [propErrors] at hep
        rcases hlk : lookupField fields p.1 with _ | v'
        · rw [hlk] at hep
          rcases hop : p.2.1 with _ | _
          · rw [hop] at hep
            simp only [Bool.false_eq_true, if_neg, not_false_iff, List.mem_singleton] at hep
            subst hep
            refine ⟨'.', p.1.data, Or.inl rfl, joinPath path p.1, rfl, ?_⟩
            exact joinPath_data path p.1 hpath
          · rw [hop] at hep
            simp at hep
        · rw [hlk] at hep
          have hsz : sizeOf p.2.2 < sizeOf (TypeInfo.object props) := by
            have h1 := List.sizeOf_lt_of_mem hp
            have h2 : sizeOf p.2.2 < sizeOf p := by
              obtain ⟨a, b, c⟩ := p
              simp only [Prod.mk.sizeOf_spec]
              omega
            simp only [TypeInfo.object.sizeOf_spec]
            omega
          have hpath' : joinPath path p.1 ≠ "" := by
            apply ne_empty_of_data_append _ path.data '.' p.1.data
            exact joinPath_data path p.1 hpath
          obtain ⟨c, r, hc, s, hs, hsdata⟩ :=
            IH (sizeOf p.2.2) hsz p.2.2 rfl v' (joinPath path p.1) opts e hpath' hep hcode
          refine ⟨'.', p.1.data ++ c :: r, Or.inl rfl, s, hs, ?_⟩
          rw [hsdata, joinPath_data path p.1 hpath]
          simp
      · rcases hopt : opts.allowExtraProps with _ | _
        · rw [hopt] at he
          simp only [Bool.false_eq_true, if_neg, not_false_iff] at he
          rw [extraErrors] at he
          rw [List.mem_map] at he
          obtain ⟨kv, _, hekv⟩ := he
          subst hekv
          simp [extraPropertyError] at hcode
        · rw [hopt] at he
          simp at he
    | str s => simp only [validateValue, List.mem_singleton] at he; subst he; simp [typeMismatchError] at hcode
    | num q => simp only [validateValue, List.mem_singleton] at he; subst he; simp [typeMismatchError] at hcode
    | bool b => simp only [validateValue, List.mem_singleton] at he; subst he; simp [typeMismatchError] at hcode
    | null => simp only [validateValue, List.mem_singleton] at he; subst he; simp [typeMismatchError] at hcode
    | arr xs => simp only [validateValue, List.mem_singleton] at he; subst he; simp [typeMismatchError] at hcode
  | union ts =>
    rw [validateValue_union] at he
    by_cases h : (ts.any (fun t => (validateValue v t path opts).isEmpty)) = true
    · simp [h] at he
    · simp only [Bool.not_eq_true] at h
      simp only [h, Bool.false_eq_true, if_neg, not_false_iff, List.mem_singleton] at he
      subst he; simp [typeMismatchError] at hcode
  | intersection ts =>
    rw [validateValue_intersection] at he
    rw [List.mem_flatMap] at he
    obtain ⟨t', ht', het⟩ := he
    have hsz : sizeOf t' < sizeOf (TypeInfo.intersection ts) := by
      have := List.sizeOf_lt_of_mem ht'
      simp only [TypeInfo.intersection.sizeOf_spec]
      omega
    exact IH (sizeOf t') hsz t' rfl v path opts e hpath het hcode

end FmLint

namespace FmLint

theorem joinPath_inj (path a b : String) (h : joinPath path a = joinPath path b) : a = b := by
  by_cases hp : path = ""
  · simpa [joinPath, hp] using h
  · have hd := congrArg String.data h
    rw [joinPath_data _ _ hp, joinPath_data _ _ hp] at hd
    have h2 := List.append_cancel_left hd
    exact String.ext (List.cons.inj h2).2

theorem mem_extraErrors_code (props : List (String × Bool × TypeInfo))
    (fields : List (String × Value)) (path : String) (e : ValidationError)
    (he : e ∈ extraErrors props fields path) : e.code = ErrCode.EXTRA_PROPERTY := by
  rw [extraErrors, List.mem_map] at he
  obtain ⟨kv, _, hk⟩ := he
  subst hk
  rfl

theorem nested_name_collision (path pn qn : String) (c : Char) (r : List Char)
    (h : (joinPath path qn).data = (joinPath path pn).data ++ c :: r) :
    qn.data = pn.data ++ c :: r := by
  by_cases hpe : path = ""
  · simpa [joinPath, hpe] using h
  · rw [joinPath_data _ _ hpe, joinPath_data _ _ hpe] at h
    rw [List.append_assoc] at h
    have h2 := List.append_cancel_left h
    exact (List.cons.inj h2).2

end FmLint

namespace FmLint

/-- C6 (amended) -/
theorem c6_missing_property_amended :
    (validate (.obj [("title", .str "x")])
        (.object [("title", false, .string), ("date", false, .string)]) {} =
      [{ code := .MISSING_PROPERTY
         message := "Required property 'date' is missing"
         path := some "date"
         expected := some "string"
         actual := none }]) ∧
    ∀ (fields : List (String × Value)) (props : List (String × Bool × TypeInfo))
      (path : String) (opts : LintOptions) (q : String × Bool × TypeInfo),
      q ∈ props → (props.map (fun p => p.1)).Nodup →
      (∀ p ∈ props, goodName p.1 = true) →
      ((∃ e ∈ validateValue (.obj fields) (.object props) path opts,
          e.code = ErrCode.MISSING_PROPERTY ∧ e.path = some (joinPath path q.1)) ↔
        (lookupField fields q.1 = none ∧ q.2.1 = false)) := by
  constructor
  · simp [validate, validateValue, List.attach, List.attachWith, lookupField,
      joinPath, propErrors, extraErrors, missingPropertyError, typeInfoToString]
  intro fields props path opts q hq hnd hgood
  constructor
  · rintro ⟨e, he, hcode, hepath⟩
    rw [validateValue_object, List.mem_append] at he
    rcases he with he | he
    · rw [List.mem_flatMap] at he
      obtain ⟨p, hp, hep⟩ := he
      simp only [propErrors] at hep
      rcases hlk : lookupField fields p.1 with _ | v'
      · rw [hlk] at hep
        rcases hop : p.2.1 with _ | _
        · rw [hop] at hep
          simp only [Bool.false_eq_true, if_neg, not_false_iff, List.mem_singleton] at hep
          subst hep
          have hj : joinPath path p.1 = joinPath path q.1 := by
            simpa [missingPropertyError] using hepath
          have hname : p.1 = q.1 := joinPath_inj path p.1 q.1 hj
          have hpq : p = q := List.inj_on_of_nodup_map hnd hp hq hname
          subst hpq
          exact ⟨hlk, hop⟩
        · rw [hop] at hep
          simp at hep
      · rw [hlk] at hep
        have hpath' : joinPath path p.1 ≠ "" := by
          by_cases hpe : path = ""
          · have : joinPath path p.1 = p.1 := by simp [joinPath, hpe]
            rw [this]
            have := hgood p hp
            rw [goodName, Bool.and_eq_true] at this
            simpa using this.1
          · exact ne_empty_of_data_append _ path.data '.' p.1.data (joinPath_data _ _ hpe)
        obtain ⟨c, r, hc, s, hs, hsdata⟩ :=
          missing_path_shape (sizeOf p.2.2) p.2.2 rfl v' (joinPath path p.1) opts e
            hpath' hep hcode
        rw [hepath] at hs
        have hsq : s = joinPath path q.1 := (Option.some.inj hs).symm
        subst hsq
        have hqdata : q.1.data = p.1.data ++ c :: r :=
          nested_name_collision path p.1 q.1 c r hsdata
        have hcmem : c ∈ q.1.data := by
          rw [hqdata]
          exact List.mem_append_right _ (List.mem_cons_self c r)
        have hgq := hgood q hq
        rw [goodName, Bool.and_eq_true, List.all_eq_true] at hgq
        have := hgq.2 c hcmem
        rcases hc with hc | hc <;> subst hc <;> simp at this
    · have := mem_extraErrors_code props fields path e (by
        rcases hopt : opts.allowExtraProps with _ | _
        · rw [hopt] at he
          simpa using he
        · rw [hopt] at he
          simp at he)
      rw [hcode] at this
      exact absurd this (by simp)
  · rintro ⟨habs, hreq⟩
    refine ⟨missingPropertyError (joinPath path q.1) q.2.2, ?_, rfl, rfl⟩
    rw [validateValue_object, List.mem_append]
    left
    rw [List.mem_flatMap]
    refine ⟨q, hq, ?_⟩
    simp [propErrors, habs, hreq]

end FmLint

namespace FmLint

/-- C6 witness -/
theorem c6_missing_property_amended_witness :
    ∃ e ∈ validateValue (.obj [("title", .str "x")])
        (.object [("title", false, .string), ("date", false, .string)]) ""
        ⟨false, false, false⟩,
      e.code = ErrCode.MISSING_PROPERTY ∧ e.path = some (joinPath "" "date") :=
  (c6_missing_property_amended.2 [("title", .str "x")]
      [("title", false, .string), ("date", false, .string)] "" ⟨false, false, false⟩
      ("date", false, .string)
      (List.mem_cons_of_mem _ (List.mem_cons_self _ _))
      (by decide) (by decide)).mpr ⟨rfl, rfl⟩

/-- C6 counterexample: a dot-named optional property.  The nested required
property `b` of declared property `a` produces a MISSING_PROPERTY error
whose path is `a.b`, even though the declared property literally named
`a.b` is optional and the claim says no such error may be emitted. -/
theorem c6_missing_property_counterexample :
    ((validateValue (.obj [("a", .obj [])])
        (.object [("a", false, .object [("b", false, .string)]), ("a.b", true, .string)])
        "" ⟨false, false, false⟩).map (fun e => (e.code, e.path)) =
      [(ErrCode.MISSING_PROPERTY, some "a.b")]) ∧
    lookupField [("a", Value.obj [])] "a.b" = none := by
  constructor
  · simp [validateValue, List.attach, List.attachWith, lookupField, joinPath,
      propErrors, extraErrors, missingPropertyError, typeInfoToString]
  · rfl

end FmLint

namespace FmLint

/-! ## yaml.ts: the YAML-subset parser -/

/-- Abnormal outcomes of a JS computation: an escaped exception, or the
artificial exhaustion of recursion fuel (proved unreachable below). -/
inductive JsErr where
  | thrown
  | fuelOut
deriving DecidableEq

/-- JS `\d`. -/
def isDig (c : Char) : Bool := '0' ≤ c && c ≤ '9'

/-- `/^-?\d+$/`. -/
def matchIntRe (s : String) : Bool :=
  match s.data with
  | [] => false
  | c :: cs => if c = '-' then !cs.isEmpty && cs.all isDig else (c :: cs).all isDig

/-- The part after an optional leading minus sign. -/
def afterSign : List Char → List Char
  | [] => []
  | c :: cs => if c = '-' then cs else c :: cs

/-- `/^-?\d+\.\d+$/`. -/
def matchFloatRe (s : String) : Bool :=
  let l := afterSign s.data
  let d1 := l.takeWhile isDig
  let rest := l.dropWhile isDig
  !d1.isEmpty &&
    (match rest with
     | '.' :: frac => !frac.isEmpty && frac.all isDig
     | _ => false)

/-- `/^\d{4}-\d{2}-\d{2}/` (prefix match). -/
def isoDatePrefix (s : String) : Bool :=
  match s.data with
  | a :: b :: c :: d :: '-' :: e :: f :: '-' :: g :: h :: _ =>
    isDig a && isDig b && isDig c && isDig d && isDig e && isDig f && isDig g && isDig h
  | _ => false

def parseNatDigits (acc : Nat) : List Char → Nat
  | [] => acc
  | c :: cs => parseNatDigits (acc * 10 + (c.toNat - 48)) cs

/-- JS `parseInt(s, 10)` on a string matching `/^-?\d+$/`. -/
def jsParseInt (s : String) : Rat :=
  match s.data with
  | '-' :: rest => ((-(parseNatDigits 0 rest : Int) : Int) : Rat)
  | l => (((parseNatDigits 0 l : Nat) : Int) : Rat)

/-- JS `parseFloat(s)` on a string matching `/^-?\d+\.\d+$/`. -/
def jsParseFloat (s : String) : Rat :=
  let sign : Int := if s.data.head? = some '-' then -1 else 1
  let l := afterSign s.data
  let ip := l.takeWhile isDig
  let rest := l.dropWhile isDig
  let fp := match rest with
    | '.' :: frac => frac.takeWhile isDig
    | _ => []
  let k := fp.length
  mkRat (sign * ((parseNatDigits 0 ip * 10 ^ k + parseNatDigits 0 fp : Nat) : Int)) (10 ^ k)

/-- yaml.ts `parseScalar`. -/
def parseScalar (value : String) : Value :=
  if value = "null" || value = "~" || value = "" then .null
  else if value = "true" || value = "True" || value = "TRUE" then .bool true
  else if value = "false" || value = "False" || value = "FALSE" then .bool false
  else if (value.data.head? = some '"' && value.data.getLast? = some '"') ||
      (value.data.head? = some '\'' && value.data.getLast? = some '\'') then
    .str (String.mk ((value.data.drop 1).dropLast))
  else if matchIntRe value then .num (jsParseInt value)
  else if matchFloatRe value then .num (jsParseFloat value)
  else if isoDatePrefix value then .str value
  else .str value

/-- Is this line skipped by yaml.ts `currentLine` (blank or `#` comment)? -/
def isSkipLine (l : String) : Bool :=
  jsTrim l = "" || (jsTrim l).data.head? = some '#'

/-- Number of consecutive skippable lines at the front. -/
def skipCount : List String → Nat
  | [] => 0
  | l :: ls => if isSkipLine l then skipCount ls + 1 else 0

/-- yaml.ts `currentLine`'s index advance: the first significant line at or
after `i` (`≥ lines.length` when none is left). -/
def skipIdx (lines : List String) (i : Nat) : Nat :=
  i + skipCount (lines.drop i)

/-- `trimmed.indexOf(":")`. -/
def findColon : List Char → Option Nat
  | [] => none
  | c :: cs => if c = ':' then some 0 else (findColon cs).map (· + 1)

/-- `trimmed.slice(0, ci).trim()`. -/
def keyBefore (cs : List Char) (ci : Nat) : String := String.mk (trimChars (cs.take ci))

/-- `trimmed.slice(ci + 1).trim()`. -/
def valueAfter (cs : List Char) (ci : Nat) : String := String.mk (trimChars (cs.drop (ci + 1)))

mutual

/-- yaml.ts `parseObject`, with the `while` loop as fuel recursion: each
loop iteration spends one unit of fuel and the mutation of `ctx.index` is
the explicit index.  Returns the accumulated object and the final index;
`none` only on fuel exhaustion (shown unreachable in `parseYaml_total`). -/
def parseObjectF : Nat → List String → Nat → Nat → List (String × Value) →
    Option (List (String × Value) × Nat)
  | 0, _, _, _, _ => none
  | fuel + 1, lines, baseIndent, i, acc =>
    let k := skipIdx lines i
    if k < lines.length then
      let line := lines.getD k ""
      let indent := getIndent line
      if indent < baseIndent then some (acc, k)
      else if baseIndent < indent then some (acc, k)
      else
        let trimmed := jsTrim line
        match findColon trimmed.data with
        | none => some (acc, k)
        | some ci =>
          let key := keyBefore trimmed.data ci
          let valueStr := valueAfter trimmed.data ci
          if valueStr = "" then
            let j := skipIdx lines (k + 1)
            if j < lines.length then
              let nextLine := lines.getD j ""
              let nextIndent := getIndent nextLine
              if indent < nextIndent then
                if (jsTrim nextLine).data.head? = some '-' then
                  match parseArrayF fuel lines nextIndent j [] with
                  | none => none
                  | some (ar, i2) =>
                    parseObjectF fuel lines baseIndent i2 (setField acc key (.arr ar))
                else
                  match parseObjectF fuel lines nextIndent j [] with
                  | none => none
                  | some (ob, i2) =>
                    parseObjectF fuel lines baseIndent i2 (setField acc key (.obj ob))
              else parseObjectF fuel lines baseIndent j (setField acc key .null)
            else parseObjectF fuel lines baseIndent j (setField acc key .null)
          else
            -- inline `- ...` start and plain scalars both call parseScalar
            parseObjectF fuel lines baseIndent (k + 1) (setField acc key (parseScalar valueStr))
    else some (acc, k)

/-- yaml.ts `parseArray`. -/
def parseArrayF : Nat → List String → Nat → Nat → List Value →
    Option (List Value × Nat)
  | 0, _, _, _, _ => none
  | fuel + 1, lines, baseIndent, i, acc =>
    let k := skipIdx lines i
    if k < lines.length then
      let line := lines.getD k ""
      let indent := getIndent line
      if indent < baseIndent then some (acc, k)
      else if baseIndent < indent then some (acc, k)
      else
        let trimmed := jsTrim line
        if trimmed.data.head? = some '-' then
          let afterDash := String.mk (trimChars (trimmed.data.drop 1))
          if afterDash = "" then
            let j := skipIdx lines (k + 1)
            if j < lines.length then
              let nextLine := lines.getD j ""
              let nextIndent := getIndent nextLine
              if indent < nextIndent then
                let nextTrimmed := jsTrim nextLine
                match findColon nextTrimmed.data with
                | some _ =>
                  match parseObjectF fuel lines nextIndent j [] with
                  | none => none
                  | some (ob, i2) =>
                    parseArrayF fuel lines baseIndent i2 (acc ++ [.obj ob])
                | none =>
                  parseArrayF fuel lines baseIndent (j + 1) (acc ++ [parseScalar nextTrimmed])
              else parseArrayF fuel lines baseIndent j (acc ++ [.null])
            else parseArrayF fuel lines baseIndent j (acc ++ [.null])
          else
            match findColon afterDash.data with
            | some ci =>
              let key := keyBefore afterDash.data ci
              let value := valueAfter afterDash.data ci
              let ob0 := [(key, if value = "" then Value.null else parseScalar value)]
              match parseItemPropsF fuel lines baseIndent (k + 1) ob0 with
              | none => none
              | some (ob, i2) => parseArrayF fuel lines baseIndent i2 (acc ++ [.obj ob])
            | none => parseArrayF fuel lines baseIndent (k + 1) (acc ++ [parseScalar afterDash])
        else some (acc, k)
    else some (acc, k)

/-- yaml.ts `parseArray`'s inner "check for following properties" loop of
the `- key: value` branch. -/
def parseItemPropsF : Nat → List String → Nat → Nat → List (String × Value) →
    Option (List (String × Value) × Nat)
  | 0, _, _, _, _ => none
  | fuel + 1, lines, baseIndent, i, ob =>
    let j := skipIdx lines i
    if j < lines.length then
      let nextLine := lines.getD j ""
      let nextIndent := getIndent nextLine
      if nextIndent ≤ baseIndent then some (ob, j)
      else
        let nextTrimmed := jsTrim nextLine
        if nextTrimmed.data.head? = some '-' then some (ob, j)
        else
          match findColon nextTrimmed.data with
          | none => some (ob, j)
          | some ci =>
            let key := keyBefore nextTrimmed.data ci
            let value := valueAfter nextTrimmed.data ci
            parseItemPropsF fuel lines baseIndent (j + 1)
              (setField ob key (if value = "" then Value.null else parseScalar value))
    else some (ob, j)

end

/-- yaml.ts `parseYaml`. -/
def parseYaml (input : String) : Except JsErr (List (String × Value)) :=
  let lines := splitLines input
  match parseObjectF (lines.length + 1) lines 0 0 [] with
  | some (m, _) => .ok m
  | none => .error .fuelOut

end FmLint

namespace FmLint

/-! ## toml.ts: the TOML-subset parser

The parser file is an ES module, hence strict mode: descending through a
table path whose existing entry is a primitive (`"k" in 1`), or assigning
a key into a primitive current table, raises a TypeError.  Those raised
errors are `JsErr.thrown`.  (Descending into an *array* does not throw in
JS but writes named properties onto the array object, which a value tree
cannot represent; the model reports it as `thrown` as well — no claim
depends on that corner.) -/

/-- Replace every (non-overlapping, left-to-right) occurrence of the
two-character pattern `a b` by `r`: one JS `String.replace(/../g, r)`. -/
def replace2 (a b : Char) (r : List Char) : List Char → List Char
  | [] => []
  | [c] => [c]
  | c :: c2 :: cs =>
    if c = a && c2 = b then r ++ replace2 a b r cs
    else c :: replace2 a b r (c2 :: cs)

/-- toml.ts `parseTomlString`: the five sequential escape replacements, in
source order (`\n`, `\t`, `\r`, `\\`, `\"`). -/
def parseTomlString (str : String) : String :=
  String.mk
    (replace2 '\\' '"' ['"']
      (replace2 '\\' '\\' ['\\']
        (replace2 '\\' 'r' ['\r']
          (replace2 '\\' 't' ['\t']
            (replace2 '\\' 'n' ['\n'] str.data)))))

/-- toml.ts `splitArrayItems`' character loop.  `prev` is `content[i-1]`
(a NUL stand-in for the initial empty string), `cur` the current item in
reverse.  The string-state update happens before the depth/comma logic,
which reads the updated state, exactly as in the source. -/
def splitGo : List Char → Char → List Char → Int → Bool → Char → List (List Char)
  | [], _, cur, _, _, _ =>
    if jsTrim (String.mk cur.reverse) = "" then [] else [cur.reverse]
  | ch :: cs, prev, cur, depth, inStr, sChar =>
    let st :=
      if (ch = '"' || ch = '\'') && !(prev = '\\') then
        if !inStr then (true, ch)
        else if ch = sChar then (false, sChar)
        else (inStr, sChar)
      else (inStr, sChar)
    if !st.1 then
      if ch = '[' || ch = lbrace then splitGo cs ch (ch :: cur) (depth + 1) st.1 st.2
      else if ch = ']' || ch = rbrace then splitGo cs ch (ch :: cur) (depth - 1) st.1 st.2
      else if ch = ',' && depth = 0 then cur.reverse :: splitGo cs ch [] depth st.1 st.2
      else splitGo cs ch (ch :: cur) depth st.1 st.2
    else splitGo cs ch (ch :: cur) depth st.1 st.2

/-- toml.ts `splitArrayItems`. -/
def splitArrayItems (content : String) : List String :=
  (splitGo content.data (Char.ofNat 0) [] 0 false (Char.ofNat 0)).map String.mk

/-- Split at the first `=`: the `^([^=]+)=` part and the rest. -/
def splitEq : List Char → Option (List Char × List Char)
  | [] => none
  | c :: cs =>
    if c = '=' then some ([], cs)
    else (splitEq cs).map (fun p => (c :: p.1, p.2))

/-- toml.ts `parseTomlArray`'s item loop, with the recursive value parser
passed in (`pv`). -/
def runItems (pv : String → Option Value) : List String → Option (List Value)
  | [] => some []
  | it :: rest =>
    if jsTrim it = "" then runItems pv rest
    else
      match pv (jsTrim it), runItems pv rest with
      | some v, some vs => some (v :: vs)
      | _, _ => none

/-- toml.ts `parseInlineTable`'s pair loop: each pair is matched against
`/^\s*([^=]+)\s*=\s*(.+)\s*$/` (split at the first `=`, nonempty key part,
nonempty value part, both trimmed) and written in order. -/
def runPairs (pv : String → Option Value) :
    List String → List (String × Value) → Option (List (String × Value))
  | [], acc => some acc
  | pr :: rest, acc =>
    match splitEq pr.data with
    | none => runPairs pv rest acc
    | some (before, after) =>
      if before.isEmpty then runPairs pv rest acc
      else if after.isEmpty then runPairs pv rest acc
      else
        match pv (jsTrim (String.mk after)) with
        | none => none
        | some v => runPairs pv rest (setField acc (jsTrim (String.mk before)) v)

/-- toml.ts `parseTomlValue` (with `parseTomlArray` and `parseInlineTable`
inlined at their single call sites), on recursion fuel. -/
def parseTomlValueF : Nat → String → Option Value
  | 0, _ => none
  | fuel + 1, valueStr =>
    let trimmed := jsTrim valueStr
    if trimmed = "true" then some (.bool true)
    else if trimmed = "false" then some (.bool false)
    else if trimmed.data.head? = some '"' && trimmed.data.getLast? = some '"' then
      some (.str (parseTomlString (String.mk ((trimmed.data.drop 1).dropLast))))
    else if trimmed.data.head? = some '\'' && trimmed.data.getLast? = some '\'' then
      some (.str (String.mk ((trimmed.data.drop 1).dropLast)))
    else if trimmed.data.head? = some '[' && trimmed.data.getLast? = some ']' then
      -- parseTomlArray(trimmed.slice(1, -1))
      let content := jsTrim (String.mk ((trimmed.data.drop 1).dropLast))
      if content = "" then some (.arr [])
      else (runItems (parseTomlValueF fuel) (splitArrayItems content)).map .arr
    else if trimmed.data.head? = some lbrace && trimmed.data.getLast? = some rbrace then
      -- parseInlineTable(trimmed.slice(1, -1))
      let content := jsTrim (String.mk ((trimmed.data.drop 1).dropLast))
      if content = "" then some (.obj [])
      else (runPairs (parseTomlValueF fuel) (splitArrayItems content) []).map .obj
    else if matchIntRe trimmed then some (.num (jsParseInt trimmed))
    else if matchFloatRe trimmed then some (.num (jsParseFloat trimmed))
    else if isoDatePrefix trimmed then some (.str trimmed)
    else some (.str trimmed)

/-- toml.ts `ensureTable`, functionally: returns the updated object.
`none` models the strict-mode TypeError of `key in current` when
`current` is not an object (see the module comment above). -/
def ensureTable (root : List (String × Value)) : List String →
    Option (List (String × Value))
  | [] => some root
  | k :: rest =>
    match lookupField root k with
    | some (.obj sub) => (ensureTable sub rest).map (fun s' => setField root k (.obj s'))
    | some _ => if rest.isEmpty then some root else none
    | none => (ensureTable [] rest).map (fun s' => setField root k (.obj s'))

/-- Write `currentTable[key] = v` where `currentTable` is the table at
`path` inside `root` (the alias established by `ensureTable`).  `none`
models the strict-mode TypeError of assigning into a non-object. -/
def setAtPath (root : List (String × Value)) : List String → String → Value →
    Option (List (String × Value))
  | [], k, v => some (setField root k v)
  | p :: rest, k, v =>
    match lookupField root p with
    | some (.obj sub) => (setAtPath sub rest k v).map (fun s' => setField root p (.obj s'))
    | _ => none

/-- `/^\[([^\]]+)\]$/`: a table header's captured dotted path. -/
def tableHeader (l : String) : Option String :=
  if l.data.head? = some '[' && l.data.getLast? = some ']' then
    let mid := (l.data.drop 1).dropLast
    if !mid.isEmpty && mid.all (fun c => !(c = ']')) then some (String.mk mid) else none
  else none

/-- JS `String.prototype.split(c)`. -/
def splitCharAux (c : Char) : List Char → List (List Char)
  | [] => [[]]
  | x :: xs =>
    if x = c then [] :: splitCharAux c xs
    else
      match splitCharAux c xs with
      | [] => [[x]]
      | l :: ls => (x :: l) :: ls

def splitOnChar (s : String) (c : Char) : List String :=
  (splitCharAux c s.data).map String.mk

/-- toml.ts `parseToml`'s line loop.  State: the root object and the
dotted path of the current table. -/
def parseTomlLines : List String → List (String × Value) → List String →
    Except JsErr (List (String × Value))
  | [], root, _ => .ok root
  | line :: rest, root, curPath =>
    let l := jsTrim line
    if l = "" || l.data.head? = some '#' then parseTomlLines rest root curPath
    else
      match tableHeader l with
      | some inner =>
        let tablePath := (splitOnChar inner '.').map jsTrim
        match ensureTable root tablePath with
        | none => .error .thrown
        | some root' => parseTomlLines rest root' tablePath
      | none =>
        match splitEq l.data with
        | none => parseTomlLines rest root curPath
        | some (before, after) =>
          if before.isEmpty then parseTomlLines rest root curPath
          else
            let key := jsTrim (String.mk before)
            let valueStr := jsTrim (String.mk after)
            match parseTomlValueF (valueStr.data.length + 1) valueStr with
            | none => .error .fuelOut
            | some v =>
              match setAtPath root curPath key v with
              | none => .error .thrown
              | some root' => parseTomlLines rest root' curPath

/-- toml.ts `parseToml`. -/
def parseToml (input : String) : Except JsErr (List (String × Value)) :=
  parseTomlLines (splitLines input) [] []

theorem dropLeadingWs_length (l : List Char) : (dropLeadingWs l).length ≤ l.length := by
  induction l with
  | nil => simp [dropLeadingWs]
  | cons c cs ih =>
    rw [dropLeadingWs]
    split
    · exact Nat.le_succ_of_le ih
    · simp

theorem trimChars_length (l : List Char) : (trimChars l).length ≤ l.length := by
  rw [trimChars]
  calc (dropLeadingWs (dropLeadingWs l.reverse).reverse).length
      ≤ (dropLeadingWs l.reverse).reverse.length := dropLeadingWs_length _
    _ = (dropLeadingWs l.reverse).length := List.length_reverse _
    _ ≤ l.reverse.length := dropLeadingWs_length _
    _ = l.length := List.length_reverse _

theorem jsTrim_length (s : String) : (jsTrim s).data.length ≤ s.data.length :=
  trimChars_length s.data

theorem splitGo_length (cs : List Char) :
    ∀ (prev : Char) (cur : List Char) (depth : Int) (inStr : Bool) (sChar : Char)
      (x : List Char), x ∈ splitGo cs prev cur depth inStr sChar →
      x.length ≤ cur.length + cs.length := by
  induction cs with
  | nil =>
    intro prev cur depth inStr sChar x hx
    rw [splitGo] at hx
    split at hx
    · simp at hx
    · rw [List.mem_singleton] at hx
      subst hx
      simp
  | cons ch cs ih =>
    intro prev cur depth inStr sChar x hx
    rw [splitGo] at hx
    repeat' split at hx
    all_goals
      first
      | (have hb := ih ch _ _ _ _ x hx
         simp only [List.length_cons] at hb ⊢
         omega)
      | (rw [List.mem_cons] at hx
         rcases hx with hx | hx
         · subst hx
           simp only [List.length_reverse, List.length_cons]
           omega
         · have hb := ih ch _ _ _ _ x hx
           simp only [List.length_nil, List.length_cons] at hb ⊢
           omega)

theorem splitArrayItems_length (content : String) (x : String)
    (hx : x ∈ splitArrayItems content) : x.data.length ≤ content.data.length := by
  rw [splitArrayItems, List.mem_map] at hx
  obtain ⟨l, hl, hxl⟩ := hx
  subst hxl
  simpa using splitGo_length content.data _ _ _ _ _ l hl

theorem splitEq_length (cs : List Char) :
    ∀ (p : List Char × List Char), splitEq cs = some p → p.2.length < cs.length := by
  induction cs with
  | nil => intro p h; simp [splitEq] at h
  | cons c cs ih =>
    intro p h
    rw [splitEq] at h
    split at h
    · rw [← Option.some.inj h]
      simp
    · rw [Option.map_eq_some'] at h
      obtain ⟨q, hq, hpq⟩ := h
      subst hpq
      have := ih q hq
      simp
      omega

theorem runItems_isSome (pv : String → Option Value) (items : List String)
    (h : ∀ it ∈ items, jsTrim it = "" ∨ (pv (jsTrim it)).isSome = true) :
    (runItems pv items).isSome = true := by
  induction items with
  | nil => rfl
  | cons it rest ih =>
    rw [runItems]
    split
    · exact ih (fun y hy => h y (List.mem_cons_of_mem it hy))
    · rcases h it (List.mem_cons_self it rest) with hc | hc
      · simp_all
      · rcases hv : pv (jsTrim it) with _ | v
        · rw [hv] at hc; simp at hc
        · rcases hr : runItems pv rest with _ | vs
          · have := ih (fun y hy => h y (List.mem_cons_of_mem it hy))
            rw [hr] at this
            simp at this
          · simp [hv, hr]

theorem runPairs_isSome (pv : String → Option Value) (pairs : List String) :
    ∀ (acc : List (String × Value)),
    (∀ pr ∈ pairs, ∀ b a, splitEq pr.data = some (b, a) →
      (pv (jsTrim (String.mk a))).isSome = true) →
    (runPairs pv pairs acc).isSome = true := by
  induction pairs with
  | nil => intro acc _; rfl
  | cons pr rest ih =>
    intro acc h
    rw [runPairs]
    have hrest := fun y hy => h y (List.mem_cons_of_mem pr hy)
    rcases hsp : splitEq pr.data with _ | p
    · exact ih acc hrest
    · obtain ⟨b, a⟩ := p
      simp only []
      split
      · exact ih acc hrest
      · split
        · exact ih acc hrest
        · rcases hv : pv (jsTrim (String.mk a)) with _ | v
          · have := h pr (List.mem_cons_self pr rest) b a hsp
            rw [hv] at this
            simp at this
          · exact ih _ hrest

theorem parseTomlValueF_isSome (fuel : Nat) :
    ∀ s : String, s.data.length < fuel → (parseTomlValueF fuel s).isSome = true := by
  induction fuel with
  | zero => intro s h; exact absurd h (Nat.not_lt_zero _)
  | succ fuel ih =>
    intro s hlen
    rw [parseTomlValueF]
    split
    · rfl
    split
    · rfl
    split
    · rfl
    split
    · rfl
    split
    case isTrue hbr =>
      have htrim : (jsTrim s).data.length ≤ s.data.length := jsTrim_length s
      have hne : (jsTrim s).data ≠ [] := by
        intro hz
        rw [hz] at hbr
        simp at hbr
      have hlen1 : 1 ≤ (jsTrim s).data.length := by
        cases hd : (jsTrim s).data with
        | nil => exact absurd hd hne
        | cons x xs => simp
      simp only []
      split
      · rfl
      · rw [Option.isSome_map']
        apply runItems_isSome
        intro it hit
        by_cases hz : jsTrim it = ""
        · exact Or.inl hz
        · right
          apply ih
          have h1 := splitArrayItems_length _ _ hit
          have h2 : (jsTrim (String.mk (((jsTrim s).data.drop 1).dropLast))).data.length ≤
              (jsTrim s).data.length - 2 := by
            calc (jsTrim (String.mk (((jsTrim s).data.drop 1).dropLast))).data.length
                ≤ (String.mk (((jsTrim s).data.drop 1).dropLast)).data.length := jsTrim_length _
              _ = (((jsTrim s).data.drop 1).dropLast).length := rfl
              _ = (jsTrim s).data.length - 2 := by
                  rw [List.length_dropLast, List.length_drop]
                  omega
          have h3 := jsTrim_length it
          omega
    split
    case isTrue hbr =>
      have htrim : (jsTrim s).data.length ≤ s.data.length := jsTrim_length s
      have hne : (jsTrim s).data ≠ [] := by
        intro hz
        rw [hz] at hbr
        simp at hbr
      have hlen1 : 1 ≤ (jsTrim s).data.length := by
        cases hd : (jsTrim s).data with
        | nil => exact absurd hd hne
        | cons x xs => simp
      simp only []
      split
      · rfl
      · rw [Option.isSome_map']
        apply runPairs_isSome
        intro pr hpr b a hsp
        apply ih
        have h1 := splitArrayItems_length _ _ hpr
        have h2 : (jsTrim (String.mk (((jsTrim s).data.drop 1).dropLast))).data.length ≤
            (jsTrim s).data.length - 2 := by
          calc (jsTrim (String.mk (((jsTrim s).data.drop 1).dropLast))).data.length
              ≤ (String.mk (((jsTrim s).data.drop 1).dropLast)).data.length := jsTrim_length _
            _ = (((jsTrim s).data.drop 1).dropLast).length := rfl
            _ = (jsTrim s).data.length - 2 := by
                rw [List.length_dropLast, List.length_drop]
                omega
        have h3 : a.length < pr.data.length := splitEq_length pr.data _ hsp
        have h4 : (jsTrim (String.mk a)).data.length ≤ a.length := jsTrim_length _
        omega
    split
    · rfl
    split
    · rfl
    split
    · rfl
    · rfl


theorem skipCount_le (l : List String) : skipCount l ≤ l.length := by
  induction l with
  | nil => simp [skipCount]
  | cons x xs ih =>
    rw [skipCount]
    split
    · simpa using ih
    · simp

theorem skipIdx_ge (lines : List String) (i : Nat) : i ≤ skipIdx lines i :=
  Nat.le_add_right i _

theorem skipIdx_le (lines : List String) (i : Nat) (h : i ≤ lines.length) :
    skipIdx lines i ≤ lines.length := by
  rw [skipIdx]
  have h1 := skipCount_le (lines.drop i)
  rw [List.length_drop] at h1
  omega

theorem yaml_fuel (fuel : Nat) :
    ∀ (lines : List String) (b i : Nat), i ≤ lines.length → lines.length - i < fuel →
      (∀ acc, ∃ r, ∃ j, parseObjectF fuel lines b i acc = some (r, j) ∧
        i ≤ j ∧ j ≤ lines.length) ∧
      (∀ acc, ∃ r, ∃ j, parseArrayF fuel lines b i acc = some (r, j) ∧
        i ≤ j ∧ j ≤ lines.length) ∧
      (∀ ob, ∃ r, ∃ j, parseItemPropsF fuel lines b i ob = some (r, j) ∧
        i ≤ j ∧ j ≤ lines.length) := by
  induction fuel with
  | zero => intro lines b i _ h2; exact absurd h2 (Nat.not_lt_zero _)
  | succ fuel IH =>
    intro lines b i hiL hfuel
    have hk_ge : i ≤ skipIdx lines i := skipIdx_ge lines i
    have hk_le : skipIdx lines i ≤ lines.length := skipIdx_le lines i hiL
    have hj_ge : skipIdx lines i + 1 ≤ skipIdx lines (skipIdx lines i + 1) :=
      skipIdx_ge lines _
    refine ⟨?_, ?_, ?_⟩
    · intro acc
      rw [parseObjectF]
      simp only []
      split
      case isFalse hk => exact ⟨acc, skipIdx lines i, rfl, hk_ge, hk_le⟩
      case isTrue hk =>
        have hj_le : skipIdx lines (skipIdx lines i + 1) ≤ lines.length :=
          skipIdx_le lines _ (by omega)
        split
        case isTrue h => exact ⟨acc, skipIdx lines i, rfl, hk_ge, hk_le⟩
        case isFalse h =>
          split
          case isTrue h2 => exact ⟨acc, skipIdx lines i, rfl, hk_ge, hk_le⟩
          case isFalse h2 =>
            split
            case h_1 => exact ⟨acc, skipIdx lines i, rfl, hk_ge, hk_le⟩
            case h_2 ci heq =>
              split
              case isTrue hv =>
                split
                case isTrue hjL =>
                  split
                  case isTrue hind =>
                    split
                    case isTrue hdash =>
                      obtain ⟨ar, i2, harr, hi2a, hi2b⟩ :=
                        (IH lines (getIndent (lines.getD (skipIdx lines (skipIdx lines i + 1)) ""))
                          (skipIdx lines (skipIdx lines i + 1)) (by omega) (by omega)).2.1 []
                      rw [harr]
                      simp only []
                      obtain ⟨r, j2, hcont, hj2a, hj2b⟩ :=
                        (IH lines b i2 (by omega) (by omega)).1
                          (setField acc (keyBefore (jsTrim (lines.getD (skipIdx lines i) "")).data ci) (.arr ar))
                      rw [hcont]
                      exact ⟨r, j2, rfl, by omega, hj2b⟩
                    case isFalse hdash =>
                      obtain ⟨ob, i2, hnest, hi2a, hi2b⟩ :=
                        (IH lines (getIndent (lines.getD (skipIdx lines (skipIdx lines i + 1)) ""))
                          (skipIdx lines (skipIdx lines i + 1)) (by omega) (by omega)).1 []
                      rw [hnest]
                      simp only []
                      obtain ⟨r, j2, hcont, hj2a, hj2b⟩ :=
                        (IH lines b i2 (by omega) (by omega)).1
                          (setField acc (keyBefore (jsTrim (lines.getD (skipIdx lines i) "")).data ci) (.obj ob))
                      rw [hcont]
                      exact ⟨r, j2, rfl, by omega, hj2b⟩
                  case isFalse hind =>
                    obtain ⟨r, j2, hcont, hj2a, hj2b⟩ :=
                      (IH lines b (skipIdx lines (skipIdx lines i + 1)) (by omega) (by omega)).1
                        (setField acc (keyBefore (jsTrim (lines.getD (skipIdx lines i) "")).data ci) .null)
                    rw [hcont]
                    exact ⟨r, j2, rfl, by omega, hj2b⟩
                case isFalse hjL =>
                  obtain ⟨r, j2, hcont, hj2a, hj2b⟩ :=
                    (IH lines b (skipIdx lines (skipIdx lines i + 1)) (by omega) (by omega)).1
                      (setField acc (keyBefore (jsTrim (lines.getD (skipIdx lines i) "")).data ci) .null)
                  rw [hcont]
                  exact ⟨r, j2, rfl, by omega, hj2b⟩
              case isFalse hv =>
                obtain ⟨r, j2, hcont, hj2a, hj2b⟩ :=
                  (IH lines b (skipIdx lines i + 1) (by omega) (by omega)).1
                    (setField acc (keyBefore (jsTrim (lines.getD (skipIdx lines i) "")).data ci)
                      (parseScalar (valueAfter (jsTrim (lines.getD (skipIdx lines i) "")).data ci)))
                rw [hcont]
                exact ⟨r, j2, rfl, by omega, hj2b⟩
    · intro acc
      rw [parseArrayF]
      simp only []
      split
      case isFalse hk => exact ⟨acc, skipIdx lines i, rfl, hk_ge, hk_le⟩
      case isTrue hk =>
        have hj_le : skipIdx lines (skipIdx lines i + 1) ≤ lines.length :=
          skipIdx_le lines _ (by omega)
        split
        case isTrue h => exact ⟨acc, skipIdx lines i, rfl, hk_ge, hk_le⟩
        case isFalse h =>
          split
          case isTrue h2 => exact ⟨acc, skipIdx lines i, rfl, hk_ge, hk_le⟩
          case isFalse h2 =>
            split
            case isFalse hdash => exact ⟨acc, skipIdx lines i, rfl, hk_ge, hk_le⟩
            case isTrue hdash =>
              split
              case isTrue hempty =>
                split
                case isTrue hjL =>
                  split
                  case isTrue hind =>
                    split
                    case h_1 ci heq =>
                      obtain ⟨ob, i2, hnest, hi2a, hi2b⟩ :=
                        (IH lines (getIndent (lines.getD (skipIdx lines (skipIdx lines i + 1)) ""))
                          (skipIdx lines (skipIdx lines i + 1)) (by omega) (by omega)).1 []
                      rw [hnest]
                      simp only []
                      obtain ⟨r, j2, hcont, hj2a, hj2b⟩ :=
                        (IH lines b i2 (by omega) (by omega)).2.1 (acc ++ [.obj ob])
                      rw [hcont]
                      exact ⟨r, j2, rfl, by omega, hj2b⟩
                    case h_2 heq =>
                      obtain ⟨r, j2, hcont, hj2a, hj2b⟩ :=
                        (IH lines b (skipIdx lines (skipIdx lines i + 1) + 1) (by omega) (by omega)).2.1
                          (acc ++ [parseScalar (jsTrim (lines.getD (skipIdx lines (skipIdx lines i + 1)) ""))])
                      rw [hcont]
                      exact ⟨r, j2, rfl, by omega, hj2b⟩
                  case isFalse hind =>
                    obtain ⟨r, j2, hcont, hj2a, hj2b⟩ :=
                      (IH lines b (skipIdx lines (skipIdx lines i + 1)) (by omega) (by omega)).2.1
                        (acc ++ [.null])
                    rw [hcont]
                    exact ⟨r, j2, rfl, by omega, hj2b⟩
                case isFalse hjL =>
                  obtain ⟨r, j2, hcont, hj2a, hj2b⟩ :=
                    (IH lines b (skipIdx lines (skipIdx lines i + 1)) (by omega) (by omega)).2.1
                      (acc ++ [.null])
                  rw [hcont]
                  exact ⟨r, j2, rfl, by omega, hj2b⟩
              case isFalse hempty =>
                split
                case h_1 ci heq =>
                  obtain ⟨ob, i2, hprops, hi2a, hi2b⟩ :=
                    (IH lines b (skipIdx lines i + 1) (by omega) (by omega)).2.2
                      [(keyBefore (String.mk (trimChars ((jsTrim (lines.getD (skipIdx lines i) "")).data.drop 1))).data ci,
                        if valueAfter (String.mk (trimChars ((jsTrim (lines.getD (skipIdx lines i) "")).data.drop 1))).data ci = "" then Value.null
                        else parseScalar (valueAfter (String.mk (trimChars ((jsTrim (lines.getD (skipIdx lines i) "")).data.drop 1))).data ci))]
                  rw [hprops]
                  simp only []
                  obtain ⟨r, j2, hcont, hj2a, hj2b⟩ :=
                    (IH lines b i2 (by omega) (by omega)).2.1 (acc ++ [.obj ob])
                  rw [hcont]
                  exact ⟨r, j2, rfl, by omega, hj2b⟩
                case h_2 heq =>
                  obtain ⟨r, j2, hcont, hj2a, hj2b⟩ :=
                    (IH lines b (skipIdx lines i + 1) (by omega) (by omega)).2.1
                      (acc ++ [parseScalar (String.mk (trimChars ((jsTrim (lines.getD (skipIdx lines i) "")).data.drop 1)))])
                  rw [hcont]
                  exact ⟨r, j2, rfl, by omega, hj2b⟩
    · intro ob
      rw [parseItemPropsF]
      simp only []
      split
      case isFalse hk => exact ⟨ob, skipIdx lines i, rfl, hk_ge, hk_le⟩
      case isTrue hk =>
        split
        case isTrue h => exact ⟨ob, skipIdx lines i, rfl, hk_ge, hk_le⟩
        case isFalse h =>
          split
          case isTrue h2 => exact ⟨ob, skipIdx lines i, rfl, hk_ge, hk_le⟩
          case isFalse h2 =>
            split
            case h_1 => exact ⟨ob, skipIdx lines i, rfl, hk_ge, hk_le⟩
            case h_2 ci heq =>
              obtain ⟨r, j2, hcont, hj2a, hj2b⟩ :=
                (IH lines b (skipIdx lines i + 1) (by omega) (by omega)).2.2
                  (setField ob (keyBefore (jsTrim (lines.getD (skipIdx lines i) "")).data ci)
                    (if valueAfter (jsTrim (lines.getD (skipIdx lines i) "")).data ci = "" then Value.null
                     else parseScalar (valueAfter (jsTrim (lines.getD (skipIdx lines i) "")).data ci)))
              rw [hcont]
              exact ⟨r, j2, rfl, by omega, hj2b⟩

theorem setField_absent (fields : List (String × Value)) (k : String) (v : Value)
    (h : lookupField fields k = none) : setField fields k v = fields ++ [(k, v)] := by
  induction fields with
  | nil => rfl
  | cons kv rest ih =>
    rw [lookupField] at h
    rw [setField]
    split
    case isTrue he =>
      rw [if_pos he] at h
      exact absurd h (by simp)
    case isFalse he =>
      rw [if_neg he] at h
      rw [ih h]
      simp

theorem parseTomlLines_no_fuelOut (lines : List String) :
    ∀ (root : List (String × Value)) (curPath : List String),
      parseTomlLines lines root curPath ≠ .error .fuelOut := by
  induction lines with
  | nil => intro root curPath h; simp [parseTomlLines] at h
  | cons line rest ih =>
    intro root curPath h
    rw [parseTomlLines] at h
    split at h
    · exact ih root curPath h
    · split at h
      case h_1 inner heq =>
        simp only [] at h
        split at h
        · simp at h
        · exact ih _ _ h
      case h_2 heq =>
        split at h
        case h_1 => exact ih root curPath h
        case h_2 before after hsp =>
          simp only [] at h
          split at h
          · exact ih root curPath h
          · split at h
            case h_1 hv =>
              have hs := parseTomlValueF_isSome
                ((jsTrim (String.mk after)).data.length + 1) (jsTrim (String.mk after)) (by omega)
              rw [hv] at hs
              simp at hs
            case h_2 v hv =>
              split at h
              · simp at h
              · exact ih _ _ h

/-- C9 (amended) -/
theorem c9_parsers_terminate :
    (∀ input : String, ∃ m, parseYaml input = .ok m) ∧
    (∀ input : String, parseToml input = .error .thrown ∨ ∃ m, parseToml input = .ok m) := by
  constructor
  · intro input
    obtain ⟨r, j, hr, _, _⟩ :=
      (yaml_fuel ((splitLines input).length + 1) (splitLines input) 0 0 (by omega)
        (by omega)).1 []
    exact ⟨r, by rw [parseYaml]; rw [hr]⟩
  · intro input
    rcases hres : parseToml input with e | m
    · cases e with
      | thrown => exact Or.inl rfl
      | fuelOut =>
        rw [parseToml] at hres
        exact absurd hres (parseTomlLines_no_fuelOut _ _ _)
    · exact Or.inr ⟨m, rfl⟩

/-- C9 counterexample: a TOML document whose table header descends into a
previously-assigned primitive makes the parser throw a TypeError rather
than return a mapping. -/
theorem c9_toml_throws_counterexample :
    parseToml "a = 1\n[a]\nb = 2\n" = .error .thrown := by rfl

/-- C8 -/
theorem c8_toml_tables_and_arrays :
    (∀ (root : List (String × Value)) (name : String),
      lookupField root name = none →
      ensureTable root [name] = some (root ++ [(name, .obj [])])) ∧
    parseToml "tags = [\"a\", \"b\"]\n[author]\nname = \"X\"\n" =
      .ok [("tags", .arr [.str "a", .str "b"]), ("author", .obj [("name", .str "X")])] := by
  constructor
  · intro root name h
    rw [ensureTable, h]
    simp only [ensureTable, Option.map_some']
    rw [setField_absent root name _ h]
  · rfl

/-- C8 witness -/
theorem c8_toml_tables_and_arrays_witness :
    ensureTable [("tags", .arr [.str "a", .str "b"])] ["author"] =
      some [("tags", .arr [.str "a", .str "b"]), ("author", .obj [])] :=
  c8_toml_tables_and_arrays.1 [("tags", .arr [.str "a", .str "b"])] "author" rfl

/-- C7 -/
theorem c7_dates_stay_strings :
    (∀ s : String, isoDatePrefix s = true → parseScalar s = .str s) ∧
    parseYaml "title: Hello\ndate: 2024-01-01\n" =
      .ok [("title", .str "Hello"), ("date", .str "2024-01-01")] := by
  refine ⟨?_, rfl⟩
  intro s h
  rw [isoDatePrefix] at h
  split at h
  case h_2 => exact absurd h (by simp)
  case h_1 a b c d e f g hh rest hdata =>
    simp only [Bool.and_eq_true] at h
    obtain ⟨⟨⟨⟨⟨⟨⟨ha, hb⟩, hc⟩, hd⟩, he⟩, hf⟩, hg⟩, hh'⟩ := h
    have hand : a ≠ '-' := by
      intro hx; rw [hx] at ha; exact absurd ha (by decide)
    have hq1 : a ≠ '"' := by
      intro hx; rw [hx] at ha; exact absurd ha (by decide)
    have hq2 : a ≠ '\'' := by
      intro hx; rw [hx] at ha; exact absurd ha (by decide)
    rw [parseScalar]
    rw [if_neg (by
      simp only [Bool.or_eq_true, not_or]
      refine ⟨⟨?_, ?_⟩, ?_⟩ <;> intro hx <;> rw [decide_eq_true_eq] at hx <;>
        rw [hx] at hdata <;> simp at hdata)]
    rw [if_neg (by
      simp only [Bool.or_eq_true, not_or]
      refine ⟨⟨?_, ?_⟩, ?_⟩ <;> intro hx <;> rw [decide_eq_true_eq] at hx <;>
        rw [hx] at hdata <;> simp at hdata)]
    rw [if_neg (by
      simp only [Bool.or_eq_true, not_or]
      refine ⟨⟨?_, ?_⟩, ?_⟩ <;> intro hx <;> rw [decide_eq_true_eq] at hx <;>
        rw [hx] at hdata <;> simp at hdata)]
    rw [if_neg (by
      simp only [Bool.or_eq_true, not_or, Bool.and_eq_true]
      constructor <;> intro hx <;> rw [hdata] at hx <;> simp at hx
      · exact hq1 hx.1
      · exact hq2 hx.1)]
    have hdd : isDig '-' = false := by decide
    rw [if_neg (by
      rw [matchIntRe, hdata]
      simp [hand, hdd])]
    rw [if_neg (by
      rw [matchFloatRe]
      simp only [hdata, afterSign]
      rw [if_neg hand]
      simp [List.takeWhile_cons, List.dropWhile_cons, ha, hb, hc, hd, hdd])]
    rw [if_pos (by rw [isoDatePrefix, hdata]; simp [ha, hb, hc, hd, he, hf, hg, hh'])]

/-- C7 witness -/
theorem c7_dates_stay_strings_witness :
    isoDatePrefix "2024-01-01" = true ∧ parseScalar "2024-01-01" = .str "2024-01-01" :=
  ⟨by decide, c7_dates_stay_strings.1 "2024-01-01" (by decide)⟩


end FmLint

namespace FmLint

/-! ## type-comment.ts and frontmatter.ts -/

/-- types.ts `SchemaKind`. -/
inductive SchemaKind where
  | typescript
  | zod
  | jsonschema
  | auto
deriving DecidableEq

/-- types.ts `TypeReference`. -/
structure TypeReference where
  kind : SchemaKind
  filePath : String
  typeName : String
deriving DecidableEq

/-- Split on runs of `\s`, dropping empty tokens. -/
def splitWsAux : List Char → List Char → List (List Char)
  | [], acc => if acc.isEmpty then [] else [acc.reverse]
  | c :: cs, acc =>
    if isJsSpace c then
      if acc.isEmpty then splitWsAux cs [] else acc.reverse :: splitWsAux cs []
    else splitWsAux cs (c :: acc)

/-- The `\s`-separated tokens after a leading `#` on the trimmed line;
`none` when the trimmed line does not start with `#`. -/
def hashTokens (line : String) : Option (List (List Char)) :=
  match (jsTrim line).data with
  | '#' :: rest => some (splitWsAux rest [])
  | _ => none

/-- type-comment.ts `parseTypeComment`.  The three anchored regexes
`/^#\s*@type\s+(\S+)\s+(\S+)\s*$/`, `/^#\s*@zod\s+(\S+)\s+(\S+)\s*$/` and
`/^#\s*@jsonschema\s+(\S+)\s*$/` are deterministic: on a trimmed line they
hold exactly when the `#`-prefixed remainder splits into whitespace-
separated tokens `[keyword, path, name]` (resp. `[keyword, path]`), since
`\S+` groups cannot span whitespace and the final `\s*$` forbids extra
tokens. -/
def parseTypeComment (line : String) : Option TypeReference :=
  match hashTokens line with
  | some [kw, p, n] =>
    if kw = "@type".data then some ⟨.typescript, String.mk p, String.mk n⟩
    else if kw = "@zod".data then some ⟨.zod, String.mk p, String.mk n⟩
    else none
  | some [kw, p] =>
    if kw = "@jsonschema".data then some ⟨.jsonschema, String.mk p, ""⟩
    else none
  | _ => none

/-- C5 (amended) -/
theorem c5_directive_grammar_amended :
    (∀ (line : String) (r : TypeReference),
      parseTypeComment line = some r ↔
        ((∃ p n, hashTokens line = some ["@type".data, p, n] ∧
            r = ⟨.typescript, String.mk p, String.mk n⟩) ∨
         (∃ p n, hashTokens line = some ["@zod".data, p, n] ∧
            r = ⟨.zod, String.mk p, String.mk n⟩) ∨
         (∃ p, hashTokens line = some ["@jsonschema".data, p] ∧
            r = ⟨.jsonschema, String.mk p, ""⟩))) ∧
    parseTypeComment "# @type ./types.ts BlogPost" =
      some ⟨.typescript, "./types.ts", "BlogPost"⟩ ∧
    parseTypeComment "# @zod ./schema.ts BlogPostSchema" =
      some ⟨.zod, "./schema.ts", "BlogPostSchema"⟩ ∧
    parseTypeComment "# @jsonschema ./schema.json" =
      some ⟨.jsonschema, "./schema.json", ""⟩ := by
  refine ⟨?_, by decide, by decide, by decide⟩
  intro line r
  rw [parseTypeComment]
  rcases ht : hashTokens line with _ | ts
  · simp
  · match ts with
    | [] => simp
    | [kw] => simp
    | [kw, p] =>
      simp only []
      constructor
      · intro h
        split at h
        next he =>
          subst he
          exact Or.inr (Or.inr ⟨p, rfl, (Option.some.inj h).symm⟩)
        next he => simp at h
      · rintro (⟨p', n', hts, hr⟩ | ⟨p', n', hts, hr⟩ | ⟨p', hts, hr⟩) <;> simp at hts
        obtain ⟨hkw, hp⟩ := hts
        subst hkw
        subst hp
        subst hr
        rw [if_pos rfl]
    | [kw, p, n] =>
      simp only []
      constructor
      · intro h
        split at h
        next he =>
          subst he
          exact Or.inl ⟨p, n, rfl, (Option.some.inj h).symm⟩
        next he =>
          split at h
          next he2 =>
            subst he2
            exact Or.inr (Or.inl ⟨p, n, rfl, (Option.some.inj h).symm⟩)
          next he2 => simp at h
      · rintro (⟨p', n', hts, hr⟩ | ⟨p', n', hts, hr⟩ | ⟨p', hts, hr⟩) <;> simp at hts
        · obtain ⟨hkw, hp, hn⟩ := hts
          subst hkw
          subst hp
          subst hn
          subst hr
          rw [if_pos rfl]
        · obtain ⟨hkw, hp, hn⟩ := hts
          subst hkw
          subst hp
          subst hn
          subst hr
          rw [if_neg (by decide), if_pos rfl]
    | _ :: _ :: _ :: _ :: _ => simp

/-- C5 counterexample: a `# @schema <path> <name>` comment is *not*
recognized as a directive, while `# @type <path> <name>` is — the single
pattern the claim states does not exist in the code; three keyword-specific
patterns do. -/
theorem c5_directive_grammar_counterexample :
    parseTypeComment "# @schema ./types.ts BlogPost" = none ∧
    (parseTypeComment "# @type ./types.ts BlogPost").isSome = true := by
  constructor
  · decide
  · decide

end FmLint

namespace FmLint

/-- types.ts `FrontmatterFormat`. -/
inductive FrontmatterFormat where
  | yaml
  | toml
  | json
deriving DecidableEq

/-- `^delim\r?\n`, returning the remainder. -/
def stripOpen (delim : List Char) (cs : List Char) : Option (List Char) :=
  if cs.take (delim.length + 2) = delim ++ ['\r', '\n'] then some (cs.drop (delim.length + 2))
  else if cs.take (delim.length + 1) = delim ++ ['\n'] then some (cs.drop (delim.length + 1))
  else none

/-- The lazy `([\s\S]*?)(?:\r?\n)?close` scan: at each position first try
`\r\n` + close, then `\n` + close, then close; otherwise grow the body. -/
def scanBody (close : List Char) : List Char → Option (List Char)
  | [] => none
  | c :: rest =>
    if (c :: rest).take (close.length + 2) = '\r' :: '\n' :: close then some []
    else if (c :: rest).take (close.length + 1) = '\n' :: close then some []
    else if (c :: rest).take close.length = close then some []
    else (scanBody close rest).map (fun b => c :: b)

/-- frontmatter.ts `matchFrontmatter`: YAML_REGEX first, then TOML_REGEX. -/
def matchFrontmatter (content : String) : Option (String × FrontmatterFormat) :=
  match stripOpen "---".data content.data with
  | some rest => (scanBody "---".data rest).map (fun b => (String.mk b, .yaml))
  | none =>
    match stripOpen "+++".data content.data with
    | some rest => (scanBody "+++".data rest).map (fun b => (String.mk b, .toml))
    | none => none

/-- types.ts `ParsedFrontmatter`. -/
structure ParsedFrontmatter where
  data : List (String × Value)
  typeRef : Option TypeReference := none
  format : FrontmatterFormat
  raw : String
  startLine : Nat
  endLine : Nat

/-- frontmatter.ts's directive loop: the last `@type`-style comment wins,
all other lines are kept as data lines in order. -/
def collectDirective : List String → Option TypeReference → List String →
    (Option TypeReference × List String)
  | [], tr, acc => (tr, acc.reverse)
  | l :: ls, tr, acc =>
    match parseTypeComment l with
    | some t => collectDirective ls (some t) acc
    | none => collectDirective ls tr (l :: acc)

/-- `dataLines.join("\n")`. -/
def joinNl : List String → String
  | [] => ""
  | [x] => x
  | x :: xs => x ++ "\n" ++ joinNl xs

/-- frontmatter.ts `extractFrontmatter`. -/
def extractFrontmatter (content : String) : Except JsErr (Option ParsedFrontmatter) :=
  match matchFrontmatter content with
  | none => .ok none
  | some (raw, format) =>
    let pr := collectDirective (splitLines raw) none []
    let dataContent := joinNl pr.2
    match (if format = .toml then parseToml dataContent else parseYaml dataContent) with
    | .error e => .error e
    | .ok data =>
      .ok (some { data := data, typeRef := pr.1, format := format, raw := raw,
                  startLine := 1, endLine := (splitLines raw).length + 2 })

/-- types.ts `LintResult` (the variant index.ts actually constructs). -/
structure LintResult where
  file : String
  valid : Bool
  errors : List ValidationError
deriving DecidableEq

/-- index.ts `createErrorResult`. -/
def createErrorResult (file : String) (code : ErrCode) (message : String) : LintResult :=
  { file := file, valid := false, errors := [{ code := code, message := message }] }

/-- index.ts `createSuccessResult`. -/
def createSuccessResult (file : String) : LintResult :=
  { file := file, valid := true, errors := [] }

/-- index.ts `AutoDetectResult` (the failure codes are
MULTIPLE_SCHEMAS_FOUND / NO_SCHEMA_IN_FILE in the source; the model allows
any code, which only strengthens the theorem below). -/
inductive AutoDetectResult where
  | success (typeRef : TypeReference)
  | failure (code : ErrCode) (message : String)

/-- The external collaborators of index.ts, abstracted: the file system
(schema.json presence, the linted file), `autoDetectSchemaTs`,
`extractTypeInfo`, `validateWithZod` and `validateWithJsonSchema`. -/
structure Env where
  schemaJsonExists : Bool := false
  schemaTsDetect : Option AutoDetectResult := none
  extractTypeInfo : String → String → Option TypeInfo := fun _ _ => none
  zodErrors : String → String → LintOptions → List ValidationError := fun _ _ _ => []
  jsonSchemaErrors : String → LintOptions → List ValidationError := fun _ _ => []
  fileExists : Bool := false
  fileContent : String := ""
  baseDir : String := "."

/-- index.ts `lintContent`'s schema-resolution phase: explicit typeRef,
else (unless noAutoSchema) schema.json, else schema.ts auto-detection,
whose failure is an early error return (`Sum.inl`). -/
def resolveTypeRef (env : Env) (tr0 : Option TypeReference) (opts : LintOptions)
    (filePath : String) : LintResult ⊕ Option TypeReference :=
  match tr0 with
  | some t => .inr (some t)
  | none =>
    if opts.noAutoSchema then .inr none
    else if env.schemaJsonExists then .inr (some ⟨.jsonschema, "schema.json", ""⟩)
    else
      match env.schemaTsDetect with
      | none => .inr none
      | some (.success t) => .inr (some t)
      | some (.failure c m) => .inl (createErrorResult filePath c m)

/-- index.ts `lintContent`.  Option defaulting (`{allowExtraProps: false,
...options}`) is observationally the identity here because absent
optional booleans and `false` behave alike under truthiness. -/
def lintContent (env : Env) (content filePath basePath : String)
    (options : LintOptions := {}) : Except JsErr LintResult :=
  match extractFrontmatter content with
  | .error e => .error e
  | .ok none => .ok (createSuccessResult filePath)
  | .ok (some frontmatter) =>
    match resolveTypeRef env frontmatter.typeRef options filePath with
    | .inl result => .ok result
    | .inr none =>
      if options.requireSchema then
        .ok (createErrorResult filePath .MISSING_SCHEMA_ANNOTATION
          "Frontmatter is missing # @type, # @zod, or # @jsonschema comment")
      else .ok (createSuccessResult filePath)
    | .inr (some typeRef) =>
      match typeRef.kind with
      | .zod =>
        let errors := env.zodErrors typeRef.filePath typeRef.typeName options
        .ok { file := filePath, valid := errors.isEmpty, errors := errors }
      | .jsonschema =>
        let errors := env.jsonSchemaErrors typeRef.filePath options
        .ok { file := filePath, valid := errors.isEmpty, errors := errors }
      | _ =>
        match env.extractTypeInfo typeRef.filePath typeRef.typeName with
        | none =>
          .ok (createErrorResult filePath .TYPE_NOT_FOUND
            ("Type '" ++ typeRef.typeName ++ "' not found in '" ++ typeRef.filePath ++ "'"))
        | some typeInfo =>
          let errors := validate (.obj frontmatter.data) typeInfo options
          .ok { file := filePath, valid := errors.isEmpty, errors := errors }

/-- index.ts `lintFile`. -/
def lintFile (env : Env) (filePath : String) (options : LintOptions := {}) :
    Except JsErr LintResult :=
  if env.fileExists then lintContent env env.fileContent filePath env.baseDir options
  else .ok (createErrorResult filePath .FILE_NOT_FOUND ("File not found: " ++ filePath))

/-- C10 -/
theorem c10_lint_result_invariant :
    (∀ (env : Env) (content filePath basePath : String) (opts : LintOptions)
        (r : LintResult), lintContent env content filePath basePath opts = .ok r →
      (r.valid = true ↔ r.errors = [])) ∧
    (∀ (env : Env) (filePath : String) (opts : LintOptions) (r : LintResult),
        lintFile env filePath opts = .ok r → (r.valid = true ↔ r.errors = [])) ∧
    (∀ (f : String) (c : ErrCode) (m : String),
      createErrorResult f c m =
        { file := f, valid := false, errors := [{ code := c, message := m }] } ∧
      (createErrorResult f c m).errors.length = 1) ∧
    (∀ f : String, createSuccessResult f = { file := f, valid := true, errors := [] }) := by
  have hmain : ∀ (env : Env) (content filePath basePath : String) (opts : LintOptions)
      (r : LintResult), lintContent env content filePath basePath opts = .ok r →
      (r.valid = true ↔ r.errors = []) := by
    intro env content filePath basePath opts r h
    rw [lintContent] at h
    split at h
    · simp at h
    · rw [← Except.ok.inj h]
      simp [createSuccessResult]
    · split at h
      · rw [← Except.ok.inj h]
        rename_i result hres
        rw [resolveTypeRef.eq_def] at hres
        split at hres
        · simp at hres
        · split at hres
          · simp at hres
          · split at hres
            · simp at hres
            · split at hres
              · simp at hres
              · simp at hres
              · rw [← Sum.inl.inj hres]
                simp [createErrorResult]
      · split at h
        · rw [← Except.ok.inj h]
          simp [createErrorResult]
        · rw [← Except.ok.inj h]
          simp [createSuccessResult]
      · split at h
        · rw [← Except.ok.inj h]
          simp [List.isEmpty_iff]
        · rw [← Except.ok.inj h]
          simp [List.isEmpty_iff]
        · split at h
          · rw [← Except.ok.inj h]
            simp [createErrorResult]
          · rw [← Except.ok.inj h]
            simp [List.isEmpty_iff]
  refine ⟨hmain, ?_, ?_, ?_⟩
  · intro env filePath opts r h
    rw [lintFile] at h
    split at h
    · exact hmain env env.fileContent filePath env.baseDir opts r h
    · rw [← Except.ok.inj h]
      simp [createErrorResult]
  · intro f c m
    exact ⟨rfl, rfl⟩
  · intro f
    rfl

/-- C10 witness -/
theorem c10_lint_result_invariant_witness :
    lintContent {} "no frontmatter here" "doc.md" "." {} =
      .ok (createSuccessResult "doc.md") ∧
    ((createSuccessResult "doc.md").valid = true ↔
      (createSuccessResult "doc.md").errors = []) :=
  ⟨rfl, c10_lint_result_invariant.1 {} "no frontmatter here" "doc.md" "." {}
    (createSuccessResult "doc.md") rfl⟩

end FmLint
